import Mathlib

/-!
# Verification of the `tmpl` template synchronization/diff-resolution engine

A shallow embedding, in Lean 4, of the synchronization subsystem of the
repository (the `tmpl.sync` package and its helpers):

* `src/tmpl/sync/resolver.py`  — chunk-based Jinja resolution and its validator,
* `src/tmpl/sync/comparator.py` — directory comparison,
* `src/tmpl/sync/differ.py` — the synchronization driver,
* `src/tmpl/templates/validation.py` — materialized-path to template-path mapping,
* `src/tmpl/templates/copier_integration.py` — template-variable resolution,
* `src/tmpl/utils/filesystem.py` — git-tracked file enumeration.

The resolver is built on Python's `difflib.SequenceMatcher` (called with
`isjunk=None, autojunk=False` at both call sites), so the relevant parts of
CPython's `difflib` are embedded as well (`find_longest_match`,
`get_matching_blocks`, `get_opcodes`).

Modelling conventions:

* Python `str` is Lean `String`; string primitives that the code uses
  (`splitlines`, `strip`, `rstrip`, `startswith`, `endswith`, `in`, slicing)
  are re-implemented by structural recursion over `List Char` so that every
  definition evaluates inside the kernel.
* Python `int` is Lean `Int`; list indexing and slice assignment follow
  Python's semantics for negative and out-of-range indices.
* Python `dict`s used as integer maps are modelled as functions.
* File-system state touched by a function is passed and returned explicitly;
  external effects (the copier render pipeline, `git ls-files`, YAML answers)
  are oracle parameters bundled in small environment structures.
* Python exceptions are modelled with `Except PyErr`; code regions that the
  source wraps in `try/except` map exceptions to the source's fallback value.
* Loops whose Python form is `while`-based are given an explicit fuel
  argument that is an exact bound on the number of iterations, keeping every
  definition structurally recursive (hence executable by `decide`/`rfl`).
-/

/-! ## Python string and list primitives -/

/-- An opaque token standing for a raised Python exception. -/
inductive PyErr
  | exc (msg : String)
deriving DecidableEq

/-- The characters Python's `str.splitlines` treats as line terminators. -/
def pyLineTerminators : List Char :=
  ['\n', '\r', '\x0b', '\x0c', '\x1c', '\x1d', '\x1e', '\x85', '\u2028', '\u2029']

/-- Is `c` a line terminator for `str.splitlines`? -/
def isLineTerm (c : Char) : Bool := pyLineTerminators.contains c

/-- Characters for which Python's `str.isspace()` holds (used by `str.strip()`). -/
def pySpaceChars : List Char :=
  ['\t', '\n', '\x0b', '\x0c', '\r', '\x1c', '\x1d', '\x1e', '\x1f', ' ',
   '\x85', '\xa0', '\u1680', '\u2000', '\u2001', '\u2002', '\u2003', '\u2004',
   '\u2005', '\u2006', '\u2007', '\u2008', '\u2009', '\u200a', '\u2028',
   '\u2029', '\u202f', '\u205f', '\u3000']

/-- Is `c` Python whitespace? -/
def isPySpace (c : Char) : Bool := pySpaceChars.contains c

/-- Core of Python's `str.splitlines` over a character list: split at each line
terminator, treating `"\r\n"` as a single terminator; a trailing terminator
does not produce a final empty line. -/
def pySplitlinesCore : List Char → List (List Char)
  | [] => []
  | '\r' :: '\n' :: cs => [] :: pySplitlinesCore cs
  | c :: cs =>
    if isLineTerm c then [] :: pySplitlinesCore cs
    else
      match pySplitlinesCore cs with
      | [] => [[c]]
      | l :: ls => (c :: l) :: ls

/-- Python's `s.splitlines()`. -/
def pySplitlines (s : String) : List String :=
  (pySplitlinesCore s.toList).map String.mk

/-- Python's `s.strip()` (no argument: strip whitespace from both ends). -/
def pyStrip (s : String) : String :=
  String.mk ((((s.toList.dropWhile isPySpace).reverse).dropWhile isPySpace).reverse)

/-- Python's `s.rstrip("\n")`: strip newline characters from the right end only. -/
def pyRstripNl (s : String) : String :=
  String.mk ((s.toList.reverse.dropWhile (fun c => c = '\n')).reverse)

/-- Python's `s.startswith(pre)`. -/
def pyStartsWith (s pre : String) : Bool :=
  List.isPrefixOf pre.toList s.toList

/-- Python's `s.endswith(suf)`. -/
def pyEndsWith (s suf : String) : Bool :=
  List.isPrefixOf suf.toList.reverse s.toList.reverse

/-- Does `needle` occur as a contiguous infix of `hay` (character lists)? -/
def listHasInfix (needle : List Char) : List Char → Bool
  | [] => needle.isEmpty
  | c :: rest => List.isPrefixOf needle (c :: rest) || listHasInfix needle rest

/-- Python's `needle in hay` on strings. -/
def pyInStr (needle hay : String) : Bool :=
  listHasInfix needle.toList hay.toList

/-- Python's `s[n:]` when `n` is the length of a known leading part (used for
`diff[len("Content differs: "):]`). -/
def pyDropLen (s : String) (n : Nat) : String :=
  String.mk (s.toList.drop n)

/-- Core of `"\n".join` over character lists: the separator goes between
consecutive lines. -/
def joinNl : List (List Char) → List Char
  | [] => []
  | [l] => l
  | l :: ls => l ++ '\n' :: joinNl ls

/-- `"\n".join(lines)`. -/
def joinLines (ls : List String) : String :=
  String.mk (joinNl (ls.map String.toList))

/-- Python's `range(lo, hi)` as a list of `Int`. -/
def intRange (lo hi : Int) : List Int :=
  (List.range (hi - lo).toNat).map (fun (k : Nat) => lo + (k : Int))

/-- Resolve one endpoint of a Python slice `l[s:e]` against a list of length
`len`: negative indices count from the end, then everything is clamped into
`[0, len]`. -/
def pySliceIdx (len : Nat) (i : Int) : Nat :=
  if i < 0 then (i + len).toNat else min i.toNat len

/-- Python's slice read `l[s:e]`. -/
def pyGetSlice {α : Type} (l : List α) (s e : Int) : List α :=
  (l.take (pySliceIdx l.length e)).drop (pySliceIdx l.length s)

/-- Python's slice assignment `l[s:e] = xs` (with `xs = []` this is
`del l[s:e]`): the resolved range is replaced by `xs`; when the resolved end
lies before the resolved start the assignment inserts at the start position. -/
def pySetSlice {α : Type} (l : List α) (s e : Int) (xs : List α) : List α :=
  let s' := pySliceIdx l.length s
  let e' := max s' (pySliceIdx l.length e)
  l.take s' ++ xs ++ l.drop e'

/-- Python's `l[i]` with negative indexing, totalized with a default for
out-of-range accesses (the embedded code only indexes in range). -/
def pyGetD {α : Type} (l : List α) (i : Int) (d : α) : α :=
  let i' := if i < 0 then i + l.length else i
  if i' < 0 then d else ((l.get? i'.toNat).getD d)

/-! ## CPython `difflib.SequenceMatcher`

Embedded from CPython's `difflib.py` as instantiated by
`src/tmpl/sync/resolver.py`: both call sites pass `isjunk=None` and
`autojunk=False`, so `bjunk` and `bpopular` are empty; the two junk-extension
`while` loops of `find_longest_match` (whose guards require `isbjunk(...)` to
hold) can never run and are omitted. Sequences are `List String` (lines). -/

/-- `b2j`: map an element to the ascending list of its positions in `b`. -/
def b2j (b : List String) : String → List Int := fun x =>
  ((List.range b.length).filter (fun j => b.get? j = some x)).map
    (fun (j : Nat) => (j : Int))

/-- The inner `for j in b2j.get(a[i], [])` loop of `find_longest_match`:
`old` is the previous row's `j2len`, `newd` the row being built, `best` the
running `(besti, bestj, bestsize)`.  `j < blo` is `continue`, `j >= bhi` is
`break`. -/
def flm_inner (i blo bhi : Int) (old : Int → Int) :
    List Int → (Int → Int) → Int × Int × Int → ((Int → Int) × (Int × Int × Int))
  | [], newd, best => (newd, best)
  | j :: js, newd, best =>
    if j < blo then flm_inner i blo bhi old js newd best
    else if bhi ≤ j then (newd, best)
    else
      let k := old (j - 1) + 1
      let newd' : Int → Int := fun x => if x = j then k else newd x
      if best.2.2 < k then
        flm_inner i blo bhi old js newd' (i - k + 1, j - k + 1, k)
      else
        flm_inner i blo bhi old js newd' best

/-- One row (one value of `i`) of the dynamic-programming scan of
`find_longest_match`: run the inner loop over `b2j.get(a[i], [])` with a
fresh `newj2len`. -/
def flm_row (a : List String) (bj : String → List Int) (blo bhi : Int)
    (st : (Int → Int) × (Int × Int × Int)) (i : Int) :
    (Int → Int) × (Int × Int × Int) :=
  flm_inner i blo bhi st.1 (bj (pyGetD a i "")) (fun _ => 0) st.2

/-- The dynamic-programming scan of `find_longest_match` (the
`for i in range(alo, ahi)` loop). -/
def flm_scan (a : List String) (bj : String → List Int) (alo ahi blo bhi : Int) :
    Int × Int × Int :=
  ((intRange alo ahi).foldl (flm_row a bj blo bhi)
    ((fun _ => 0 : Int → Int), (alo, blo, 0))).2

/-- The first extension loop of `find_longest_match`
(`while besti > alo and bestj > blo and a[besti-1] == b[bestj-1]`).
The fuel is exactly `(besti - alo).toNat`, which the guard makes an exact
bound, so the fuelled form equals the `while` loop. -/
def flm_extend_lo (a b : List String) (alo blo : Int) :
    Nat → Int × Int × Int → Int × Int × Int
  | 0, st => st
  | n + 1, (bi, bjj, bs) =>
    if alo < bi ∧ blo < bjj ∧ pyGetD a (bi - 1) "" = pyGetD b (bjj - 1) "" then
      flm_extend_lo a b alo blo n (bi - 1, bjj - 1, bs + 1)
    else (bi, bjj, bs)

/-- The second extension loop of `find_longest_match`
(`while besti+bestsize < ahi and bestj+bestsize < bhi and a[...] == b[...]`),
fuelled by `(ahi - (besti + bestsize)).toNat`, again an exact bound. -/
def flm_extend_hi (a b : List String) (ahi bhi : Int) :
    Nat → Int × Int × Int → Int × Int × Int
  | 0, st => st
  | n + 1, (bi, bjj, bs) =>
    if bi + bs < ahi ∧ bjj + bs < bhi ∧ pyGetD a (bi + bs) "" = pyGetD b (bjj + bs) "" then
      flm_extend_hi a b ahi bhi n (bi, bjj, bs + 1)
    else (bi, bjj, bs)

/-- `SequenceMatcher.find_longest_match(alo, ahi, blo, bhi)` (no junk). -/
def find_longest_match (a b : List String) (bj : String → List Int)
    (alo ahi blo bhi : Int) : Int × Int × Int :=
  let m0 := flm_scan a bj alo ahi blo bhi
  let m1 := flm_extend_lo a b alo blo (m0.1 - alo).toNat m0
  flm_extend_hi a b ahi bhi (ahi - (m1.1 + m1.2.2)).toNat m1

/-- The queue-driven divide-and-conquer of `get_matching_blocks`
(`queue.pop()` pops the last element; sub-problems are appended at the end).
Each iteration strictly decreases `Σ ((ahi-alo) + (bhi-blo) + 1)` over the
queue, so fuel `a.length + b.length + 1` (the initial value of that measure)
is an exact bound and the fuelled form computes the full loop. -/
def gmb_loop (a b : List String) (bj : String → List Int) :
    Nat → List (Int × Int × Int × Int) → List (Int × Int × Int) → List (Int × Int × Int)
  | 0, _, blocks => blocks
  | n + 1, queue, blocks =>
    match queue.getLast? with
    | none => blocks
    | some (alo, ahi, blo, bhi) =>
      let rest := queue.dropLast
      let m := find_longest_match a b bj alo ahi blo bhi
      let i := m.1
      let j := m.2.1
      let k := m.2.2
      if k ≠ 0 then
        let q1 := if alo < i ∧ blo < j then rest ++ [(alo, i, blo, j)] else rest
        let q2 := if i + k < ahi ∧ j + k < bhi then q1 ++ [(i + k, ahi, j + k, bhi)] else q1
        gmb_loop a b bj n q2 (blocks ++ [m])
      else gmb_loop a b bj n rest blocks

/-- `list.sort()`'s ascending lexicographic order on the `(i, j, size)` tuples. -/
def block_le (x y : Int × Int × Int) : Prop :=
  x.1 < y.1 ∨ (x.1 = y.1 ∧ (x.2.1 < y.2.1 ∨ (x.2.1 = y.2.1 ∧ x.2.2 ≤ y.2.2)))

instance (x y : Int × Int × Int) : Decidable (block_le x y) := by
  unfold block_le; infer_instance

/-- Stable insertion into an ascending list (model of `list.sort()`). -/
def insert_block (x : Int × Int × Int) :
    List (Int × Int × Int) → List (Int × Int × Int)
  | [] => [x]
  | y :: ys => if block_le x y then x :: y :: ys else y :: insert_block x ys

/-- `matching_blocks.sort()`: stable ascending sort. -/
def sort_blocks : List (Int × Int × Int) → List (Int × Int × Int)
  | [] => []
  | x :: xs => insert_block x (sort_blocks xs)

/-- The loop body of the adjacent-block collapsing pass of
`get_matching_blocks` (`i1 + k1 == i2 and j1 + k1 == j2` merges, otherwise
the accumulated block is emitted when non-empty). -/
def collapse_step (st : (Int × Int × Int) × List (Int × Int × Int))
    (blk : Int × Int × Int) : (Int × Int × Int) × List (Int × Int × Int) :=
  let cur := st.1
  let acc := st.2
  if cur.1 + cur.2.2 = blk.1 ∧ cur.2.1 + cur.2.2 = blk.2.1 then
    ((cur.1, cur.2.1, cur.2.2 + blk.2.2), acc)
  else
    (blk, if cur.2.2 ≠ 0 then acc ++ [cur] else acc)

/-- The adjacent-block collapsing pass, continued. -/
def collapse_blocks (blocks : List (Int × Int × Int)) : List (Int × Int × Int) :=
  let fin := blocks.foldl collapse_step ((0, 0, 0), [])
  (if fin.1.2.2 ≠ 0 then fin.2 ++ [fin.1] else fin.2)

/-- `SequenceMatcher(None, a, b, autojunk=False).get_matching_blocks()`. -/
def get_matching_blocks (a b : List String) : List (Int × Int × Int) :=
  let blocks := gmb_loop a b (b2j b) (a.length + b.length + 1)
    [((0 : Int), (a.length : Int), (0 : Int), (b.length : Int))] []
  collapse_blocks (sort_blocks blocks) ++ [((a.length : Int), (b.length : Int), 0)]

/-- The loop body of `get_opcodes`: the tags are the Python strings
`"replace" | "delete" | "insert" | "equal"`. -/
def opcodes_step (st : (Int × Int) × List (String × Int × Int × Int × Int))
    (blk : Int × Int × Int) : (Int × Int) × List (String × Int × Int × Int × Int) :=
  let ij := st.1
  let answer := st.2
  let i := ij.1
  let j := ij.2
  let ai := blk.1
  let bjv := blk.2.1
  let size := blk.2.2
  let tag : String :=
    if i < ai ∧ j < bjv then "replace"
    else if i < ai then "delete"
    else if j < bjv then "insert"
    else ""
  let answer := if tag ≠ "" then answer ++ [(tag, i, ai, j, bjv)] else answer
  let answer := if size ≠ 0 then
      answer ++ [("equal", ai, ai + size, bjv, bjv + size)] else answer
  ((ai + size, bjv + size), answer)

/-- `SequenceMatcher(None, a, b, autojunk=False).get_opcodes()`, continued. -/
def get_opcodes (a b : List String) : List (String × Int × Int × Int × Int) :=
  ((get_matching_blocks a b).foldl opcodes_step ((0, 0), [])).2

/-! ## `src/tmpl/sync/resolver.py`

The resolver reads the template file, proposes a new body by projecting the
expected→actual diff onto the template lines, and validates the proposal by
re-rendering.  File contents on disk are passed explicitly: `Option String`
is the current content of `template_file` (`none` = the file does not exist).
External effects are collected in `RenderEnv`:

* `read_fails` — when `some e`, any `open(template_file).read()` raises `e`
  (e.g. a `UnicodeDecodeError`); reads otherwise return the file's content.
* `pipeline` — the outcome of the `try`-block work of
  `validate_auto_resolved_template` after the temporary write: running copier
  (`run_copier_quietly`), parsing variables, rendering the materialized path
  and reading the materialized file, as a function of the template-file
  content on disk at render time.  `.error e` models any exception raised
  there, `.ok none` a missing materialized file, `.ok (some s)` its content.
  Writes of the template file are modelled as always succeeding. -/

structure RenderEnv where
  read_fails : Option PyErr
  pipeline : String → Except PyErr (Option String)

/-- `_line_has_jinja_markers` (resolver.py lines 17–19). -/
def _line_has_jinja_markers (line : String) : Bool :=
  pyInStr "\x7b\x7b" line || pyInStr "\x7b%" line || pyInStr "\x7b#" line

/-- The `exp_to_tpl` dictionary: a partial map from `Int` to `Int`. -/
def IndexMap : Type := Int → Option Int

/-- `mapping[k] = v`. -/
def imap_insert (m : IndexMap) (k v : Int) : IndexMap :=
  fun x => if x = k then some v else m x

/-- `mapping.setdefault(k, v)`. -/
def imap_setdefault (m : IndexMap) (k v : Int) : IndexMap :=
  fun x => if x = k then some ((m k).getD v) else m x

/-- `_build_expected_to_template_index_map` (resolver.py lines 22–41):
equal blocks map index-for-index over `span = min(i2-i1, j2-j1)`; other
blocks map every expected index to the template block start; finally
`len(expected_lines) ↦ len(template_lines)` when `expected_lines` is
non-empty. -/
def build_map_step (m : IndexMap) (op : String × Int × Int × Int × Int) : IndexMap :=
  let (tag, i1, i2, j1, j2) := op
  if tag = "equal" then
    let span := min (i2 - i1) (j2 - j1)
    (intRange 0 span).foldl (fun m k => imap_insert m (j1 + k) (i1 + k)) m
  else
    (intRange j1 j2).foldl (fun m j => imap_setdefault m j i1) m

def _build_expected_to_template_index_map (template_lines expected_lines : List String) :
    IndexMap :=
  let m := (get_opcodes template_lines expected_lines).foldl build_map_step (fun _ => none)
  if expected_lines ≠ [] then
    imap_setdefault m expected_lines.length template_lines.length
  else m

/-- The mutable loop state of `attempt_chunk_based_jinja_resolution`:
`new_template_lines`, `delta_offset`, `changes_made`. -/
structure ResolveState where
  new_template_lines : List String
  delta_offset : Int
  changes_made : Bool
deriving DecidableEq

/-- The closure `tpl_index_from_expected` (resolver.py lines 66–67): look up
`exp_index`, defaulting to the current `len(new_template_lines)`, plus the
running `delta_offset`. -/
def tpl_index_from_expected (exp_to_tpl : IndexMap) (st : ResolveState)
    (exp_index : Int) : Int :=
  ((exp_to_tpl exp_index).getD (st.new_template_lines.length : Int)) + st.delta_offset

/-- The closure `safe_region_has_jinja` (resolver.py lines 69–73). -/
def safe_region_has_jinja (lines : List String) (t_start t_end : Int) : Bool :=
  (intRange (max 0 t_start) (min (lines.length : Int) t_end)).any
    (fun t => _line_has_jinja_markers (pyGetD lines t ""))

/-- One iteration of the `for tag, i1, i2, j1, j2 in matcher.get_opcodes()`
loop of `attempt_chunk_based_jinja_resolution` (resolver.py lines 77–111). -/
def apply_opcode (exp_to_tpl : IndexMap) (actual_lines : List String)
    (st : ResolveState) (op : String × Int × Int × Int × Int) : ResolveState :=
  let (tag, i1, i2, j1, j2) := op
  if tag = "equal" then st
  else
    let tpl_start := tpl_index_from_expected exp_to_tpl st i1
    let tpl_end := tpl_index_from_expected exp_to_tpl st i2
    if (tag = "replace" ∨ tag = "delete") ∧
        safe_region_has_jinja st.new_template_lines tpl_start tpl_end then st
    else if tag = "insert" then
      let insert_lines := pyGetSlice actual_lines j1 j2
      let left_ctx := max 0 (tpl_start - 1)
      let right_ctx := min (st.new_template_lines.length : Int) (tpl_start + 1)
      if (intRange left_ctx right_ctx).any
          (fun t => _line_has_jinja_markers (pyGetD st.new_template_lines t "")) then st
      else
        { new_template_lines := pySetSlice st.new_template_lines tpl_start tpl_start insert_lines
          delta_offset := st.delta_offset + insert_lines.length
          changes_made := true }
    else if tag = "delete" then
      let del_count := max 0 (tpl_end - tpl_start)
      if 0 < del_count then
        { new_template_lines := pySetSlice st.new_template_lines tpl_start tpl_end []
          delta_offset := st.delta_offset - del_count
          changes_made := true }
      else st
    else if tag = "replace" then
      let replacement_lines := pyGetSlice actual_lines j1 j2
      let del_count := max 0 (tpl_end - tpl_start)
      { new_template_lines := pySetSlice st.new_template_lines tpl_start tpl_end replacement_lines
        delta_offset := st.delta_offset + replacement_lines.length - del_count
        changes_made := true }
    else st

/-- The pure core of `attempt_chunk_based_jinja_resolution` (resolver.py lines
59–111): build the index map, diff expected against actual, and fold the edit
script over the template lines.  Returns `(new_template_lines, changes_made)`. -/
def propose_resolution (template_lines expected_lines actual_lines : List String) :
    List String × Bool :=
  let exp_to_tpl := _build_expected_to_template_index_map template_lines expected_lines
  let st := (get_opcodes expected_lines actual_lines).foldl
    (apply_opcode exp_to_tpl actual_lines)
    { new_template_lines := template_lines, delta_offset := 0, changes_made := false }
  (st.new_template_lines, st.changes_made)

/-- `validate_auto_resolved_template` (resolver.py lines 135–185).  Takes the
template file's current content (`none` = missing) and returns the Python
result (`.error e` = an exception propagates to the caller) together with the
file's content after the call.  The body mirrors the source: the original
content is read *before* the `try` (a read failure propagates), the resolved
content is written and the render pipeline runs inside `try/except Exception`
(any exception there yields `False`), and the `finally` block rewrites the
original content only when it was read (`original_content is not None`). -/
def validate_auto_resolved_template (env : RenderEnv) (template_file : Option String)
    (resolved_content expected_materialized_content : String) :
    Except PyErr Bool × Option String :=
  match template_file with
  | some original_content =>
    match env.read_fails with
    | some e => (.error e, some original_content)
    | none =>
      let outcome : Except PyErr Bool :=
        match env.pipeline resolved_content with
        | .error _ => .ok false
        | .ok none => .ok false
        | .ok (some validation_actual) =>
          .ok (pyStrip validation_actual = pyStrip expected_materialized_content)
      (outcome, some original_content)
  | none =>
    let outcome : Except PyErr Bool :=
      match env.pipeline resolved_content with
      | .error _ => .ok false
      | .ok none => .ok false
      | .ok (some validation_actual) =>
        .ok (pyStrip validation_actual = pyStrip expected_materialized_content)
    (outcome, some resolved_content)

/-- `attempt_chunk_based_jinja_resolution` (resolver.py lines 44–132).  The
template file's content is `template_file` (`none` = missing, the
`template_file.exists()` check); the read of the file happens outside any
`try`, so a read failure propagates. -/
def attempt_chunk_based_jinja_resolution (env : RenderEnv) (template_file : Option String)
    (expected_content actual_content : String) :
    Except PyErr (Option String) × Option String :=
  match template_file with
  | none => (.ok none, none)
  | some template_content =>
    match env.read_fails with
    | some e => (.error e, some template_content)
    | none =>
      let template_lines := pySplitlines template_content
      let expected_lines := pySplitlines expected_content
      let actual_lines := pySplitlines actual_content
      let res := propose_resolution template_lines expected_lines actual_lines
      if res.2 = false then (.ok none, some template_content)
      else
        let joined := joinLines res.1
        let proposed_content := if pyEndsWith joined "\n" then joined else joined ++ "\n"
        match validate_auto_resolved_template env (some template_content)
            proposed_content actual_content with
        | (.ok true, fs) => (.ok (some proposed_content), fs)
        | (.ok false, fs) => (.ok none, fs)
        | (.error e, fs) => (.error e, fs)

/-! ## `src/tmpl/utils/filesystem.py` and `src/tmpl/sync/comparator.py`

A directory tree is modelled as `DirModel`: whether the root exists, the
files below it (relative path ↦ content, as `directory.rglob("*")` finds
them), and — for the `respect_gitignore=True` branch — the raw output lines
of `git ls-files --others --cached --exclude-standard` run in that directory
(an external effect; the model assumes the subprocess succeeds, which every
claim under study does).  Python `set`s are modelled as lists enumerated in
the model's order; set iteration order is unspecified in Python, and no
theorem below depends on the order within one difference group. -/

structure DirModel where
  present : Bool
  files : List (String × String)
  git_listing : List String

/-- `ignored_files` (filesystem.py line 12). -/
def ignored_files : List String := [".copier-answers.yml"]

/-- Split a string on `'/'` (all occurrences), like Python's `s.split("/")`. -/
def splitSlashCore : List Char → List (List Char)
  | [] => [[]]
  | c :: cs =>
    if c = '/' then [] :: splitSlashCore cs
    else
      match splitSlashCore cs with
      | [] => [[c]]
      | l :: ls => (c :: l) :: ls

/-- Python's `s.split("/")`. -/
def pySplitSlash (s : String) : List String :=
  (splitSlashCore s.toList).map String.mk

/-- `Path(p).name`: the final path component. -/
def path_file_name (p : String) : String :=
  ((pySplitSlash p).getLast?).getD p

/-- Does a file with relative path `p` exist under the directory
(`file_path.is_file()`)? -/
def is_file (d : DirModel) (p : String) : Bool :=
  (d.files.lookup p).isSome

/-- `get_git_tracked_files` (filesystem.py lines 10–39): with
`respect_gitignore=False` enumerate all files below the root and drop ignored
names; with `respect_gitignore=True` parse the `git ls-files` output lines,
keeping stripped non-empty lines that name existing non-ignored files. -/
def get_git_tracked_files (d : DirModel) (respect_gitignore : Bool) : List String :=
  if respect_gitignore = false then
    (d.files.map Prod.fst).filter (fun p => decide (path_file_name p ∉ ignored_files))
  else
    ((d.git_listing.map pyStrip).filter (fun l => l ≠ "")).filter
      (fun p => is_file d p && decide (path_file_name p ∉ ignored_files))

/-- The local `_normalize_newline_end` of `compare_directories`
(comparator.py lines 41–42). -/
def _normalize_newline_end (s : String) : String := pyRstripNl s ++ "\n"

/-- `compare_directories` (comparator.py lines 11–52): missing files
(expected minus actual), then extra files (actual minus expected), then
common files whose contents differ beyond trailing-newline normalization. -/
def compare_directories (expected_dir actual_dir : DirModel) : List String :=
  let expected_files :=
    if expected_dir.present then get_git_tracked_files expected_dir false else []
  let actual_files :=
    if actual_dir.present then get_git_tracked_files actual_dir true else []
  let missing := (expected_files.filter (fun p => decide (p ∉ actual_files))).map
    (fun p => "Missing file: " ++ p)
  let extra := (actual_files.filter (fun p => decide (p ∉ expected_files))).map
    (fun p => "Extra file: " ++ p)
  let content := ((expected_files.filter (fun p => decide (p ∈ actual_files))).filter
    (fun p =>
      let expected_content := (expected_dir.files.lookup p).getD ""
      let actual_content := (actual_dir.files.lookup p).getD ""
      decide (_normalize_newline_end expected_content ≠ _normalize_newline_end actual_content) &&
        decide (expected_content ≠ actual_content))).map
    (fun p => "Content differs: " ++ p)
  missing ++ extra ++ content

/-! ## `src/tmpl/templates/copier_integration.py` — `parse_template_variables`

The answers file, template question configuration and Copier's Jinja
rendering are external inputs, bundled in `ParseEnv`.  YAML / question
default values are strings or non-string scalars (`YamlVal.other`); only
string defaults containing `"{{"` are rendered. -/

inductive YamlVal
  | s (v : String)
  | other (tag : String)
deriving DecidableEq

structure ParseEnv where
  /-- `yaml.safe_load` of the materialized project's `.copier-answers.yml`. -/
  answers_data : List (String × YamlVal)
  /-- `Template(url=...).questions_data`, in order: name ↦ its `default`
  entry when present. -/
  questions_data : List (String × Option YamlVal)
  /-- `render_jinja_string(default_value, result, template_dir)`: `.error`
  models an exception (skipped variable). -/
  render : String → List (String × YamlVal) → Except PyErr String

/-- The body of the `for question_name, question_config in
template.questions_data.items()` loop (copier_integration.py lines 67–86):
for a question not yet in `result` that has a `default`, either render it
(string containing `"{{"`; a render exception skips it) or assign it
directly, setting `changed`. -/
def parse_pass_step (env : ParseEnv) (st : List (String × YamlVal) × Bool)
    (q : String × Option YamlVal) : List (String × YamlVal) × Bool :=
  let result := st.1
  let changed := st.2
  match q.2 with
  | none => (result, changed)
  | some default_value =>
    if (result.lookup q.1).isSome then (result, changed)
    else
      match default_value with
      | .s sv =>
        if pyInStr "\x7b\x7b" sv then
          match env.render sv result with
          | .ok rendered => (result ++ [(q.1, .s rendered)], true)
          | .error _ => (result, changed)
        else (result ++ [(q.1, .s sv)], true)
      | .other o => (result ++ [(q.1, .other o)], true)

/-- One pass of the default-resolution loop (copier_integration.py lines
66–86). -/
def parse_pass (env : ParseEnv) (result : List (String × YamlVal)) :
    List (String × YamlVal) × Bool :=
  env.questions_data.foldl (parse_pass_step env) (result, false)

/-- The `for _ in range(max_iterations)` loop (copier_integration.py lines
65–89) with its early exit when a pass makes no change. -/
def parse_loop (env : ParseEnv) : Nat → List (String × YamlVal) → List (String × YamlVal)
  | 0, result => result
  | n + 1, result =>
    let r := parse_pass env result
    if r.2 then parse_loop env n r.1 else r.1

/-- `parse_template_variables` (copier_integration.py lines 45–90): recorded
answers whose keys do not start with `_`, extended by at most
`max_iterations = 10` default-resolution passes. -/
def parse_template_variables (env : ParseEnv) : List (String × YamlVal) :=
  let user_answers := env.answers_data.filter (fun kv => ¬ pyStartsWith kv.1 "_")
  parse_loop env 10 user_answers

/-! ## `src/tmpl/templates/validation.py` — `map_materialized_to_template_path`

The template directory supplies only file-existence tests
(`(template_dir / p).exists()`), modelled as a predicate. -/

/-- `Path(materialized_path).parts` for the relative POSIX paths this code
receives: split on `'/'`, dropping empty and `"."` components; an absolute
path contributes a leading `"/"` part. -/
def pyPathParts (s : String) : List String :=
  let comps := (pySplitSlash s).filter (fun c => decide (c ≠ "" ∧ c ≠ "."))
  if pyStartsWith s "/" then "/" :: comps else comps

/-- `str(Path(*parts))`. -/
def joinPath (parts : List String) : String := String.intercalate "/" parts

/-- `map_materialized_to_template_path` (validation.py lines 10–35),
parameterized by the file-existence predicate of the template directory and
by the parse environment used for `parse_template_variables`. -/
def map_materialized_to_template_path (tpl_exists : String → Bool) (penv : ParseEnv)
    (materialized_path : String) : String :=
  let path_parts := pyPathParts materialized_path
  let template_variables := parse_template_variables penv
  let project_name_snake : YamlVal :=
    (template_variables.lookup "project_name_snake").getD (.s "test_proj")
  if path_parts.length ≥ 2 ∧ path_parts.get? 0 = some "src" ∧
      path_parts.get? 1 = some ((match project_name_snake with
        | .s v => v
        | .other o => o) : String) then
    let new_parts := ["src", "\x7b\x7b project_name_snake \x7d\x7d"] ++ path_parts.drop 2
    let template_path := joinPath new_parts
    let jinja_path := template_path ++ ".jinja"
    if tpl_exists jinja_path then jinja_path else template_path
  else
    let jinja_path := materialized_path ++ ".jinja"
    if tpl_exists jinja_path then jinja_path else materialized_path

/-! ## `src/tmpl/sync/differ.py` — `compare_with_expected_materialized`

The driver renders a fresh expected copy (external), diffs it against the
checked-out rendered copy with `compare_directories`, classifies each
difference, and in fix mode writes files back to the template.  `DifferEnv`
bundles the two directory models and the per-file external effects:

* `read_pair p` — contents `(expected, actual)` of the two copies of a
  content-differing file `p`; `none` models the caught
  `UnicodeDecodeError/PermissionError` (both contents set to `None`).
* `map_path` — `map_materialized_to_template_path(template_dir, ·)`
  (instantiated by the embedding above for a concrete template directory).
* `resolve tpl exp act` — the value of
  `attempt_chunk_based_jinja_resolution(template_dir, template_file, exp,
  act)` for the template file at path `tpl` (instantiated by the embedding
  above; the claims under study never reach a raising call).

Console printing and the `git diff --no-index` rendering of the textual diff
have no effect on control flow or state and are not modelled. -/

structure DifferEnv where
  expected_dir : DirModel
  actual_dir : DirModel
  read_pair : String → Option (String × String)
  map_path : String → String
  resolve : String → String → String → Option String

/-- What a fix-mode copy-back writes into a template file: the actual file's
bytes (`shutil.copy2`) or auto-resolved content. -/
inductive CopySource
  | fromActual
  | resolved (content : String)
deriving DecidableEq

/-- The classification loop over `differences` (differ.py lines 69–182):
`Content differs:` entries go to `files_to_copy` (non-templated, or templated
with a truthy auto-resolution) or to `files_needing_manual_fix` (templated
without auto-resolution); `Extra file:` entries go to `files_to_copy`
(non-templated) or `files_needing_manual_fix` (templated); any other entry —
in particular `Missing file:` — is not examined by either branch. -/
def classify_step (env : DifferEnv)
    (st : List (String × String × CopySource) × List (String × String))
    (diff : String) : List (String × String × CopySource) × List (String × String) :=
      let files_to_copy := st.1
      let files_needing_manual_fix := st.2
      if pyStartsWith diff "Content differs: " then
        let file_path := pyDropLen diff "Content differs: ".length
        let template_file_path := env.map_path file_path
        if pyEndsWith template_file_path ".jinja" then
          let auto_resolved_content : Option String :=
            match env.read_pair file_path with
            | some pair => env.resolve template_file_path pair.1 pair.2
            | none => none
          match auto_resolved_content with
          | some s =>
            if s ≠ "" then
              (files_to_copy ++ [(file_path, template_file_path, .resolved s)],
               files_needing_manual_fix)
            else (files_to_copy, files_needing_manual_fix ++ [(file_path, template_file_path)])
          | none =>
            (files_to_copy, files_needing_manual_fix ++ [(file_path, template_file_path)])
        else
          (files_to_copy ++ [(file_path, template_file_path, .fromActual)],
           files_needing_manual_fix)
      else if pyStartsWith diff "Extra file: " then
        let file_path := pyDropLen diff "Extra file: ".length
        let template_file_path := env.map_path file_path
        if pyEndsWith template_file_path ".jinja" then
          (files_to_copy, files_needing_manual_fix ++ [(file_path, template_file_path)])
        else
          (files_to_copy ++ [(file_path, template_file_path, .fromActual)],
           files_needing_manual_fix)
      else (files_to_copy, files_needing_manual_fix)

/-- The classification loop itself (differ.py lines 69–182). -/
def classify_differences (env : DifferEnv) (differences : List String) :
    List (String × String × CopySource) × List (String × String) :=
  differences.foldl (classify_step env) ([], [])

/-- `compare_with_expected_materialized` (differ.py lines 21–223).  Returns
the boolean result together with the list of template-file writes performed
(template path, written source); the dry run and the all-clean early return
write nothing. -/
def compare_with_expected_materialized (env : DifferEnv) (fix_mode : Bool) :
    Bool × List (String × CopySource) :=
  let differences := compare_directories env.expected_dir env.actual_dir
  if differences = [] then (true, [])
  else
    let cls := classify_differences env differences
    let files_to_copy := cls.1
    let files_needing_manual_fix := cls.2
    if fix_mode then
      let writes := files_to_copy.map (fun it => (it.2.1, it.2.2))
      if files_needing_manual_fix ≠ [] then (false, writes)
      else (true, writes)
    else (false, [])

/-! ### Proof vocabulary for the SequenceMatcher development

Rectangles over index space: a queue entry `(alo, ahi, blo, bhi)` of
`gmb_loop` spans `[alo, ahi) × [blo, bhi)`, a matching block `(i, j, k)`
spans `[i, i+k) × [j, j+k)`.  Two rectangles are compatible when one lies
entirely before the other in both coordinates; blocks found in disjoint
sub-problems are pairwise compatible, which after sorting yields the chain
property that `get_opcodes` needs. -/

structure Rect where
  ral : Int
  rah : Int
  rbl : Int
  rbh : Int

/-- Rectangle of a matching block `(i, j, k)`. -/
def blockRect (m : Int × Int × Int) : Rect :=
  ⟨m.1, m.1 + m.2.2, m.2.1, m.2.1 + m.2.2⟩

/-- Rectangle of a queue entry `(alo, ahi, blo, bhi)`. -/
def intervalRect (q : Int × Int × Int × Int) : Rect :=
  ⟨q.1, q.2.1, q.2.2.1, q.2.2.2⟩

/-- `r1` lies before `r2` in both coordinates. -/
def rectBefore (r1 r2 : Rect) : Prop := r1.rah ≤ r2.ral ∧ r1.rbh ≤ r2.rbl

/-- One of the two rectangles lies before the other. -/
def rectCompat (r1 r2 : Rect) : Prop := rectBefore r1 r2 ∨ rectBefore r2 r1

/-- `r1` is contained in `r2`. -/
def rectInside (r1 r2 : Rect) : Prop :=
  r2.ral ≤ r1.ral ∧ r1.rah ≤ r2.rah ∧ r2.rbl ≤ r1.rbl ∧ r1.rbh ≤ r2.rbh

/-- Chain order on blocks: the first ends before the second starts, in both
coordinates. -/
def chainLe (x y : Int × Int × Int) : Prop :=
  x.1 + x.2.2 ≤ y.1 ∧ x.2.1 + x.2.2 ≤ y.2.1

/-- A block lies inside the global rectangle `[0, la) × [0, lb)` (allowing
empty blocks at the border). -/
def blockIn (la lb : Int) (x : Int × Int × Int) : Prop :=
  0 ≤ x.1 ∧ 0 ≤ x.2.1 ∧ 0 ≤ x.2.2 ∧ x.1 + x.2.2 ≤ la ∧ x.2.1 + x.2.2 ≤ lb

/-- Specification of `find_longest_match`'s result: either the scan found
nothing and the result is the untouched initial `(alo, blo, 0)`, or it is a
non-empty block inside the window. -/
def MatchBnds (alo ahi blo bhi : Int) (m : Int × Int × Int) : Prop :=
  m = (alo, blo, 0) ∨
    (0 < m.2.2 ∧ alo ≤ m.1 ∧ blo ≤ m.2.1 ∧ m.1 + m.2.2 ≤ ahi ∧ m.2.1 + m.2.2 ≤ bhi)

/-- Invariant of a `j2len` row dictionary: entries are non-negative, live in
`[blo, bhi)`, and are bounded by the run length available inside the window
(`x - blo + 1`) and by the number of rows processed so far (`c`). -/
def DRow (blo bhi c : Int) (m : Int → Int) : Prop :=
  ∀ x, 0 ≤ m x ∧ (m x ≠ 0 → blo ≤ x ∧ x < bhi ∧ m x ≤ x - blo + 1 ∧ m x ≤ c)

/-- The walk structure of an opcode list: starting from position `(i, j)`,
each opcode is contiguous with the current position, is bounded by
`(la, lb)`, carries one of the four difflib tags, `"equal"` opcodes relate
ranges of equal length, and the list ends exactly at `(la, lb)`. -/
def OpsWalk (la lb : Int) : Int → Int → List (String × Int × Int × Int × Int) → Prop
  | i, j, [] => i = la ∧ j = lb
  | i, j, (tag, i1, i2, j1, j2) :: rest =>
    i1 = i ∧ j1 = j ∧ i ≤ i2 ∧ j ≤ j2 ∧ i2 ≤ la ∧ j2 ≤ lb ∧
    (tag = "equal" → i2 - i1 = j2 - j1) ∧
    (tag = "equal" ∨ tag = "replace" ∨ tag = "delete" ∨ tag = "insert") ∧
    OpsWalk la lb i2 j2 rest

/-- Invariant of the `gmb_loop` state: found blocks are pairwise compatible
non-empty blocks inside the global rectangle, pending queue entries are
pairwise compatible sub-rectangles of the global rectangle, and every queue
entry is compatible with every found block. -/
def GmbInv (la lb : Int) (queue : List (Int × Int × Int × Int))
    (blocks : List (Int × Int × Int)) : Prop :=
  List.Pairwise rectCompat (blocks.map blockRect) ∧
  List.Pairwise rectCompat (queue.map intervalRect) ∧
  (∀ q ∈ queue, ∀ bl ∈ blocks, rectCompat (intervalRect q) (blockRect bl)) ∧
  (∀ bl ∈ blocks, 0 < bl.2.2 ∧ blockIn la lb bl) ∧
  (∀ q ∈ queue, rectInside (intervalRect q) ⟨0, la, 0, lb⟩)

/-- What the raw block list returned by `gmb_loop` satisfies. -/
def BlocksOk (la lb : Int) (blocks : List (Int × Int × Int)) : Prop :=
  List.Pairwise rectCompat (blocks.map blockRect) ∧
  ∀ bl ∈ blocks, 0 < bl.2.2 ∧ blockIn la lb bl

/-! ## Specification-side vocabulary and concrete instances used in the theorems -/

/-- Strip only *trailing* Python whitespace — the relation the spec claims
(`"equal exactly up to trailing whitespace"`); written from the claim's
words, for comparison with the code's `str.strip()` behaviour. -/
def pyRstripWs (s : String) : String :=
  String.mk ((s.toList.reverse.dropWhile isPySpace).reverse)

/-- A render environment whose pipeline always reports a missing
materialized file. -/
def envNoop : RenderEnv := { read_fails := none, pipeline := fun _ => .ok none }

/-- A render environment whose pipeline always yields the materialized
content `"x"`. -/
def envLead : RenderEnv := { read_fails := none, pipeline := fun _ => .ok (some "x") }

/-- A render environment in which reading the template file raises. -/
def envReadFail : RenderEnv :=
  { read_fails := some (.exc "UnicodeDecodeError"), pipeline := fun _ => .ok none }

/-- The comparator example of the specification: expected directory
`{a.txt: "x\n", b.txt: "y"}`. -/
def exampleExpectedDir : DirModel :=
  { present := true, files := [("a.txt", "x\n"), ("b.txt", "y")], git_listing := [] }

/-- The comparator example of the specification: actual directory
`{a.txt: "x", c.txt: "z"}`, with git tracking both files. -/
def exampleActualDir : DirModel :=
  { present := true, files := [("a.txt", "x"), ("c.txt", "z")],
    git_listing := ["a.txt", "c.txt"] }

/-- A parse environment with one recorded answer and one metadata key. -/
def parseEnvEx : ParseEnv :=
  { answers_data := [("project_name", .s "Demo"), ("_commit", .s "v1.2.3")],
    questions_data :=
      [("greeting", some (.s "hi")),
       ("project_name", some (.s "\x7b\x7b other \x7d\x7d"))],
    render := fun _ _ => .error (.exc "UndefinedError") }

/-- A parse environment recording `project_name_snake = "myproj"`. -/
def parseEnvSnake : ParseEnv :=
  { answers_data := [("project_name_snake", .s "myproj")],
    questions_data := [],
    render := fun _ _ => .error (.exc "unused") }

/-- The `preferJinja` preference from the claim's words: return the
`.jinja`-suffixed counterpart of a path whenever that file exists in the
template directory, otherwise the path itself. -/
def preferJinja (tpl_exists : String → Bool) (p : String) : String :=
  if tpl_exists (p ++ ".jinja") then p ++ ".jinja" else p

/-- A differ environment whose only difference is a missing file. -/
def differEnvMissing : DifferEnv :=
  { expected_dir := { present := true, files := [("b.txt", "y")], git_listing := [] },
    actual_dir := { present := true, files := [], git_listing := [] },
    read_pair := fun _ => none,
    map_path := fun p => p,
    resolve := fun _ _ _ => none }

/-- A character list free of `str.splitlines` line terminators (every line
produced by `pySplitlines` is of this form). -/
def TermFree (l : List Char) : Prop := ∀ c ∈ l, isLineTerm c = false

/-- Terminated join: every line followed by one `'\n'`.  The body written to
the proposed template file is of this shape (the source appends a final
newline when missing). -/
def joinT : List (List Char) → List Char
  | [] => []
  | l :: ls => l ++ '\n' :: joinT ls

/-- Invariant of the previous `j2len` row entering row `i` of the
identity-input scan of `find_longest_match`: non-negative entries bounded by
the row count and (when set) by the diagonal run length `x + 1`. -/
def OldInv (c : Int) (f : Int → Int) : Prop :=
  ∀ x, 0 ≤ f x ∧ f x ≤ c ∧ (f x = 0 ∨ f x ≤ x + 1)

/-- Invariant of the `exp_to_tpl` dictionary while the opcode walk of
`_build_expected_to_template_index_map` stands at `(i, j)` (`i` on the
template side, `j` on the expected side): keys are exactly `[0, j)`, values
lie in `[0, i]`, and the map is monotone. -/
def MapInv (i j : Int) (m : IndexMap) : Prop :=
  (∀ y, 0 ≤ y → y < j → ∃ v, m y = some v) ∧
  (∀ y v, m y = some v → 0 ≤ y ∧ y < j ∧ 0 ≤ v ∧ v ≤ i) ∧
  (∀ y z u w, m y = some u → m z = some w → y ≤ z → u ≤ w)

/-- A render environment whose pipeline always yields the materialized
content `"a2\nX\nb\n"` (so validation succeeds against that actual
content). -/
def envC1 : RenderEnv :=
  { read_fails := none, pipeline := fun _ => .ok (some "a2\nX\nb\n") }

/-! ## Theorems -/

/-- Helper: a string formed by appending starts with its first part. -/
theorem pyStartsWith_append (a b : String) : pyStartsWith (a ++ b) a = true := by
  unfold pyStartsWith
  rw [List.isPrefixOf_iff_prefix]
  have : (a ++ b).toList = a.toList ++ b.toList := by
    simp [String.toList]
  rw [this]
  exact List.prefix_append _ _

/-- **C5** (confirmed).  Comparator example: for the expected directory
`{a.txt: "x\n", b.txt: "y"}` and actual directory `{a.txt: "x", c.txt: "z"}`
(both tracked by git), `compare_directories` returns exactly
`["Missing file: b.txt", "Extra file: c.txt"]`; `a.txt` matches because both
contents normalize to `"x\n"` after trailing-newline normalization. -/
theorem c5_comparator_example :
    compare_directories exampleExpectedDir exampleActualDir
      = ["Missing file: b.txt", "Extra file: c.txt"] := by decide

/-- **C6** (counterexample).  The list returned by `compare_directories` is
not sorted in general: on the specification's own comparator example the
result `["Missing file: b.txt", "Extra file: c.txt"]` is in descending
string order, refuting the claim that every returned list is sorted. -/
theorem c6_counterexample :
    ¬ List.Sorted (fun a b : String => a ≤ b)
      (compare_directories exampleExpectedDir exampleActualDir) := by
  intro h
  have he : compare_directories exampleExpectedDir exampleActualDir
      = ["Missing file: b.txt", "Extra file: c.txt"] := by decide
  rw [he] at h
  simp only [List.Sorted, List.pairwise_cons, List.mem_singleton] at h
  have hle : ("Missing file: b.txt" : String) ≤ "Extra file: c.txt" :=
    h.1 "Extra file: c.txt" rfl
  rw [String.le_iff_toList_le] at hle
  exact absurd hle (by decide)

/-- **C6** (amended).  The differences are not sorted; instead they are
grouped: every `Missing file:` entry precedes every `Extra file:` entry,
which precedes every `Content differs:` entry, and every entry carries one of
those three prefixes. -/
theorem c6_grouped_differences (expected_dir actual_dir : DirModel) :
    ∃ ms es cs, compare_directories expected_dir actual_dir = ms ++ es ++ cs ∧
      (∀ s ∈ ms, pyStartsWith s "Missing file: " = true) ∧
      (∀ s ∈ es, pyStartsWith s "Extra file: " = true) ∧
      (∀ s ∈ cs, pyStartsWith s "Content differs: " = true) := by
  refine ⟨_, _, _, rfl, ?_, ?_, ?_⟩ <;>
    · intro s hs
      obtain ⟨p, _, rfl⟩ := List.mem_map.1 hs
      exact pyStartsWith_append _ _

/-- **C4** (amended).  The template file's content after any call to
`validate_auto_resolved_template`: when the file existed its original content
is restored — regardless of validation success, failure or an internal
exception — and when it did not exist the call leaves the file holding the
resolved content. -/
theorem c4_restoration_characterized (env : RenderEnv) (template_file : Option String)
    (resolved_content expected : String) :
    (validate_auto_resolved_template env template_file resolved_content expected).2
      = (match template_file with
         | some original => some original
         | none => some resolved_content) := by
  cases template_file with
  | none => rfl
  | some original =>
    cases h : env.read_fails with
    | none => simp [validate_auto_resolved_template, h]
    | some e => simp [validate_auto_resolved_template, h]

/-- **C4** (counterexample).  When the template file does not exist before
the call, `validate_auto_resolved_template` does not restore the prior state:
the file afterwards exists and holds the resolved content, refuting the claim
that the file always holds exactly the content it held before. -/
theorem c4_counterexample :
    (validate_auto_resolved_template envNoop none "resolved\n" "expected").2
        = some "resolved\n"
    ∧ some "resolved\n" ≠ (none : Option String) := by decide

/-- **C2** (counterexample).  Validation accepts with `str.strip()`, which
also discards *leading* whitespace: with a pipeline rendering `"x"` and
observed actual content `" x"`, the candidate is accepted although the
re-rendered content does not equal the actual content up to trailing
whitespace — refuting "accepted only if ... equal exactly up to trailing
whitespace". -/
theorem c2_counterexample :
    validate_auto_resolved_template envLead (some "orig") "body" " x"
        = (.ok true, some "orig")
    ∧ pyRstripWs "x" ≠ pyRstripWs " x" := ⟨rfl, by decide⟩

/-- **C2** (amended).  Round-trip safety up to leading *and* trailing
whitespace: a candidate is accepted by `validate_auto_resolved_template`
(and hence returned by `attempt_chunk_based_jinja_resolution`) only if the
render pipeline, run with the candidate written to the template file,
produces materialized content that equals the observed actual content after
`str.strip()` on both sides. -/
theorem c2_roundtrip_safety_modulo_ws :
    (∀ (env : RenderEnv) (template_file : Option String)
      (resolved_content expected : String) (fs' : Option String),
      validate_auto_resolved_template env template_file resolved_content expected
          = (.ok true, fs') →
      ∃ v, env.pipeline resolved_content = .ok (some v) ∧ pyStrip v = pyStrip expected) ∧
    (∀ (env : RenderEnv) (template_file : Option String)
      (expected_content actual_content body : String) (fs' : Option String),
      attempt_chunk_based_jinja_resolution env template_file expected_content actual_content
          = (.ok (some body), fs') →
      ∃ v, env.pipeline body = .ok (some v) ∧ pyStrip v = pyStrip actual_content) := by
  have h1 : ∀ (env : RenderEnv) (template_file : Option String)
      (resolved_content expected : String) (fs' : Option String),
      validate_auto_resolved_template env template_file resolved_content expected
          = (.ok true, fs') →
      ∃ v, env.pipeline resolved_content = .ok (some v) ∧ pyStrip v = pyStrip expected := by
    intro env tf r e fs' h
    cases tf with
    | none =>
      rcases hp : env.pipeline r with he | ho
      · simp [validate_auto_resolved_template, hp] at h
      · cases ho with
        | none => simp [validate_auto_resolved_template, hp] at h
        | some v =>
          simp only [validate_auto_resolved_template, hp, Prod.mk.injEq,
            Except.ok.injEq] at h
          exact ⟨v, rfl, of_decide_eq_true h.1⟩
    | some original =>
      cases hr : env.read_fails with
      | some err => simp [validate_auto_resolved_template, hr] at h
      | none =>
        rcases hp : env.pipeline r with he | ho
        · simp [validate_auto_resolved_template, hr, hp] at h
        · cases ho with
          | none => simp [validate_auto_resolved_template, hr, hp] at h
          | some v =>
            simp only [validate_auto_resolved_template, hr, hp, Prod.mk.injEq,
              Except.ok.injEq] at h
            exact ⟨v, rfl, of_decide_eq_true h.1⟩
  refine ⟨h1, ?_⟩
  intro env tf ec ac body fs' h
  cases tf with
  | none => simp [attempt_chunk_based_jinja_resolution] at h
  | some tc =>
    simp only [attempt_chunk_based_jinja_resolution] at h
    split at h
    · simp at h
    · split at h
      · simp at h
      · split at h
        · rename_i fs heq
          simp only [Prod.mk.injEq, Except.ok.injEq, Option.some.injEq] at h
          obtain ⟨rfl, rfl⟩ := h
          exact h1 _ _ _ _ _ heq
        · simp at h
        · simp at h

/-- **C2** (witness for the amended round-trip theorem). -/
theorem c2_roundtrip_safety_modulo_ws_witness :
    ∃ v, envLead.pipeline "body" = .ok (some v) ∧ pyStrip v = pyStrip "x" :=
  c2_roundtrip_safety_modulo_ws.1 envLead (some "t") "body" "x" (some "t") rfl

/-- Helper: `validate_auto_resolved_template` only propagates an exception
raised by the initial read of the template file. -/
theorem validate_error_is_read_error (env : RenderEnv) (template_file : Option String)
    (resolved expected : String) (err : PyErr) (fs' : Option String)
    (h : validate_auto_resolved_template env template_file resolved expected
      = (.error err, fs')) :
    env.read_fails = some err := by
  cases template_file with
  | none =>
    rcases hp : env.pipeline resolved with he | ho
    · simp [validate_auto_resolved_template, hp] at h
    · cases ho with
      | none => simp [validate_auto_resolved_template, hp] at h
      | some v => simp [validate_auto_resolved_template, hp] at h
  | some original =>
    cases hr : env.read_fails with
    | some e =>
      simp only [validate_auto_resolved_template, hr, Prod.mk.injEq,
        Except.error.injEq] at h
      rw [h.1]
    | none =>
      rcases hp : env.pipeline resolved with he | ho
      · simp [validate_auto_resolved_template, hr, hp] at h
      · cases ho with
        | none => simp [validate_auto_resolved_template, hr, hp] at h
        | some v => simp [validate_auto_resolved_template, hr, hp] at h

/-- Helper: `attempt_chunk_based_jinja_resolution` only propagates an
exception raised by the read of the template file. -/
theorem attempt_error_is_read_error (env : RenderEnv) (template_file : Option String)
    (expected_content actual_content : String) (err : PyErr) (fs' : Option String)
    (h : attempt_chunk_based_jinja_resolution env template_file expected_content
      actual_content = (.error err, fs')) :
    env.read_fails = some err := by
  cases template_file with
  | none => simp [attempt_chunk_based_jinja_resolution] at h
  | some tc =>
    simp only [attempt_chunk_based_jinja_resolution] at h
    split at h
    · rename_i e heq
      simp only [Prod.mk.injEq, Except.error.injEq] at h
      rw [heq, h.1]
    · split at h
      · simp at h
      · split at h
        · simp at h
        · simp at h
        · rename_i fs heq
          simp only [Prod.mk.injEq, Except.error.injEq] at h
          obtain ⟨rfl, _⟩ := h
          exact validate_error_is_read_error _ _ _ _ _ _ heq

/-- **C3** (counterexample).  When reading the template file raises (for
example a `UnicodeDecodeError`), both resolver entry points propagate the
exception to the caller — the read happens outside any `try` block —
refuting "for every input ... without propagating any exception". -/
theorem c3_counterexample :
    (validate_auto_resolved_template envReadFail (some "t") "r" "e").1
        = .error (.exc "UnicodeDecodeError")
    ∧ (attempt_chunk_based_jinja_resolution envReadFail (some "t") "e2" "a2").1
        = .error (.exc "UnicodeDecodeError") := ⟨rfl, rfl⟩

/-- **C3** (amended).  Provided the read of the template file succeeds, no
exception propagates from either resolver entry point: every internal
exception during rendering or validation is converted to validation failure
(`false`) or to the `None` result. -/
theorem c3_no_raise_given_read_ok :
    (∀ (env : RenderEnv) (template_file : Option String) (resolved expected : String),
      env.read_fails = none →
      ∃ b fs', validate_auto_resolved_template env template_file resolved expected
        = (.ok b, fs')) ∧
    (∀ (env : RenderEnv) (template_file : Option String)
      (expected_content actual_content : String),
      env.read_fails = none →
      ∃ o fs', attempt_chunk_based_jinja_resolution env template_file expected_content
        actual_content = (.ok o, fs')) := by
  constructor
  · intro env tf r e hr
    rcases hres : validate_auto_resolved_template env tf r e with ⟨out, fs⟩
    rcases out with err | b
    · have := validate_error_is_read_error _ _ _ _ _ _ hres
      rw [hr] at this
      exact absurd this (by simp)
    · exact ⟨b, fs, rfl⟩
  · intro env tf ec ac hr
    rcases hres : attempt_chunk_based_jinja_resolution env tf ec ac with ⟨out, fs⟩
    rcases out with err | o
    · have := attempt_error_is_read_error _ _ _ _ _ _ hres
      rw [hr] at this
      exact absurd this (by simp)
    · exact ⟨o, fs, rfl⟩

/-- **C3** (witness for the amended theorem). -/
theorem c3_no_raise_given_read_ok_witness :
    (∃ b fs', validate_auto_resolved_template envNoop (some "t") "r" "e" = (.ok b, fs')) ∧
    (∃ o fs', attempt_chunk_based_jinja_resolution envNoop (some "t") "e" "a"
      = (.ok o, fs')) :=
  ⟨c3_no_raise_given_read_ok.1 envNoop (some "t") "r" "e" rfl,
   c3_no_raise_given_read_ok.2 envNoop (some "t") "e" "a" rfl⟩

/-- Helper: one question step never disturbs an existing binding — an
iteratively resolved default is only ever added under a key that is absent. -/
theorem parse_pass_step_preserves (env : ParseEnv) (st : List (String × YamlVal) × Bool)
    (q : String × Option YamlVal) (k : String) (v : YamlVal)
    (h : st.1.lookup k = some v) :
    (parse_pass_step env st q).1.lookup k = some v := by
  unfold parse_pass_step
  rcases q with ⟨qn, dflt⟩
  cases dflt with
  | none => exact h
  | some d =>
    dsimp only
    by_cases hin : (st.1.lookup qn).isSome
    · rw [if_pos hin]; exact h
    · rw [if_neg hin]
      cases d with
      | other o => simp [List.lookup_append, h]
      | s sv =>
        dsimp only
        by_cases hj : pyInStr "\x7b\x7b" sv = true
        · rw [if_pos hj]
          cases hr : env.render sv st.1 with
          | ok rendered => simp [List.lookup_append, h]
          | error e => exact h
        · rw [if_neg hj]
          simp [List.lookup_append, h]

/-- Helper: a whole pass preserves every existing binding. -/
theorem parse_pass_preserves (env : ParseEnv) (result : List (String × YamlVal))
    (k : String) (v : YamlVal) (h : result.lookup k = some v) :
    (parse_pass env result).1.lookup k = some v := by
  unfold parse_pass
  have gen : ∀ (qs : List (String × Option YamlVal)) (st : List (String × YamlVal) × Bool),
      st.1.lookup k = some v → (qs.foldl (parse_pass_step env) st).1.lookup k = some v := by
    intro qs
    induction qs with
    | nil => intro st hst; exact hst
    | cons q rest ih =>
      intro st hst
      exact ih _ (parse_pass_step_preserves env st q k v hst)
  exact gen _ _ h

/-- Helper: the capped iteration preserves every existing binding. -/
theorem parse_loop_preserves (env : ParseEnv) (n : Nat) (result : List (String × YamlVal))
    (k : String) (v : YamlVal) (h : result.lookup k = some v) :
    (parse_loop env n result).lookup k = some v := by
  induction n generalizing result with
  | zero => exact h
  | succ m ih =>
    unfold parse_loop
    by_cases hc : (parse_pass env result).2 = true
    · rw [if_pos hc]
      exact ih _ (parse_pass_preserves env result k v h)
    · rw [if_neg hc]
      exact parse_pass_preserves env result k v h

/-- Helper: filtering out underscore-prefixed keys preserves the binding of a
non-underscore key. -/
theorem lookup_filter_nonunderscore (l : List (String × YamlVal)) (k : String) (v : YamlVal)
    (hk : pyStartsWith k "_" = false) (h : l.lookup k = some v) :
    (l.filter (fun kv => ¬ pyStartsWith kv.1 "_")).lookup k = some v := by
  induction l with
  | nil => simp [List.lookup] at h
  | cons a t ih =>
    by_cases hke : (k == a.1) = true
    · have hkk : k = a.1 := eq_of_beq hke
      simp only [List.lookup, hke] at h
      have hpa : pyStartsWith a.1 "_" = false := by rw [← hkk]; exact hk
      simp [List.filter_cons, hpa, List.lookup, hke, h]
    · simp only [List.lookup, hke] at h
      by_cases hpa : pyStartsWith a.1 "_" = false
      · simp [List.filter_cons, hpa, List.lookup, hke]
        simpa using ih h
      · have hpa' : pyStartsWith a.1 "_" = true := by
          revert hpa; cases pyStartsWith a.1 "_" <;> simp
        simp [List.filter_cons, hpa']
        simpa using ih h

/-- **C9** (confirmed).  Variable-assignment merge: every recorded
non-underscore-prefixed answer keeps its recorded value through
`parse_template_variables` — a resolved default never overwrites a recorded
answer (first conjunct) or any previously resolved variable (second
conjunct) — and the default-resolution loop is the `parse_loop` iteration
capped at `max_iterations = 10` passes, a total function, so no error is
raised when the fixed point is not reached within the cap (third conjunct). -/
theorem c9_recorded_answers_preserved :
    (∀ (env : ParseEnv) (k : String) (v : YamlVal),
      pyStartsWith k "_" = false →
      env.answers_data.lookup k = some v →
      (parse_template_variables env).lookup k = some v) ∧
    (∀ (env : ParseEnv) (n : Nat) (result : List (String × YamlVal))
      (k : String) (v : YamlVal),
      result.lookup k = some v → (parse_loop env n result).lookup k = some v) ∧
    parse_template_variables = fun env =>
      parse_loop env 10 (env.answers_data.filter (fun kv => ¬ pyStartsWith kv.1 "_")) := by
  refine ⟨?_, ?_, rfl⟩
  · intro env k v hk h
    unfold parse_template_variables
    exact parse_loop_preserves env 10 _ k v (lookup_filter_nonunderscore _ k v hk h)
  · intro env n result k v h
    exact parse_loop_preserves env n result k v h

/-- **C9** (witness). -/
theorem c9_recorded_answers_preserved_witness :
    (parse_template_variables parseEnvEx).lookup "project_name" = some (.s "Demo") :=
  c9_recorded_answers_preserved.1 parseEnvEx "project_name" (.s "Demo") rfl rfl

/-- **C8** (confirmed).  Path-mapper contract, given that
`project_name_snake` resolves (to the string `snake`):
(a) a path whose components begin `src / snake` is rewritten to the literal
`src/{{ project_name_snake }}/...` prefix and the rewritten path's `.jinja`
counterpart is preferred when it exists; (b) any other path is returned
as-is, again preferring its `.jinja` counterpart when that file exists. -/
theorem c8_path_mapper_contract (tpl_exists : String → Bool) (penv : ParseEnv)
    (materialized_path snake : String)
    (hsnake : (parse_template_variables penv).lookup "project_name_snake"
      = some (.s snake)) :
    (∀ rest, pyPathParts materialized_path = "src" :: snake :: rest →
      map_materialized_to_template_path tpl_exists penv materialized_path
        = preferJinja tpl_exists
            (joinPath ("src" :: "\x7b\x7b project_name_snake \x7d\x7d" :: rest))) ∧
    ((∀ rest, pyPathParts materialized_path ≠ "src" :: snake :: rest) →
      map_materialized_to_template_path tpl_exists penv materialized_path
        = preferJinja tpl_exists materialized_path) := by
  constructor
  · intro rest hparts
    simp only [map_materialized_to_template_path]
    rw [hparts, hsnake]
    simp only [Option.getD_some]
    have hcond : ("src" :: snake :: rest).length ≥ 2 ∧
        ("src" :: snake :: rest).get? 0 = some "src" ∧
        ("src" :: snake :: rest).get? 1 = some snake := by
      refine ⟨by simp, rfl, rfl⟩
    rw [if_pos hcond]
    rfl
  · intro hne
    simp only [map_materialized_to_template_path]
    rw [hsnake]
    simp only [Option.getD_some]
    have hcond : ¬ ((pyPathParts materialized_path).length ≥ 2 ∧
        (pyPathParts materialized_path).get? 0 = some "src" ∧
        (pyPathParts materialized_path).get? 1 = some snake) := by
      intro hc
      rcases hc with ⟨hlen, h0, h1⟩
      rcases hp : pyPathParts materialized_path with _ | ⟨a, _ | ⟨b, rest⟩⟩
      · rw [hp] at hlen; simp at hlen
      · rw [hp] at hlen; simp at hlen
      · rw [hp] at h0 h1
        simp only [List.get?] at h0 h1
        obtain rfl : a = "src" := by injection h0
        obtain rfl : b = snake := by injection h1
        exact hne rest hp
    rw [if_neg hcond]
    rfl

/-- **C8** (witness): with `project_name_snake = "myproj"` and the rewritten
path's `.jinja` counterpart present, `src/myproj/app.py` maps to
`src/{{ project_name_snake }}/app.py.jinja`. -/
theorem c8_path_mapper_contract_witness :
    map_materialized_to_template_path
        (fun p => p == "src/\x7b\x7b project_name_snake \x7d\x7d/app.py.jinja")
        parseEnvSnake "src/myproj/app.py"
      = preferJinja
          (fun p => p == "src/\x7b\x7b project_name_snake \x7d\x7d/app.py.jinja")
          (joinPath ["src", "\x7b\x7b project_name_snake \x7d\x7d", "app.py"]) :=
  (c8_path_mapper_contract _ parseEnvSnake "src/myproj/app.py" "myproj" rfl).1
    ["app.py"] (by decide)

/-- Helper: a string starting with one prefix cannot start with another
prefix whose first character differs. -/
theorem pyStartsWith_targets_disjoint (s p1 p2 : String) (c1 c2 : Char)
    (h1 : p1.toList.head? = some c1) (h2 : p2.toList.head? = some c2)
    (hne : c1 ≠ c2) (h : pyStartsWith s p1 = true) :
    pyStartsWith s p2 = false := by
  unfold pyStartsWith at h ⊢
  rcases hl1 : p1.toList with _ | ⟨a1, t1⟩
  · rw [hl1] at h1; simp at h1
  · rw [hl1] at h1
    have ha1 : a1 = c1 := by simpa using h1
    rcases hl2 : p2.toList with _ | ⟨a2, t2⟩
    · rw [hl2] at h2; simp at h2
    · rw [hl2] at h2
      have ha2 : a2 = c2 := by simpa using h2
      rw [hl1, ha1] at h
      rw [ha2]
      rcases hs : s.toList with _ | ⟨cs, ts⟩
      · rw [hs] at h; simp [List.isPrefixOf] at h
      · rw [hs] at h
        simp only [List.isPrefixOf, Bool.and_eq_true, beq_iff_eq] at h
        rw [← h.1]
        simp [List.isPrefixOf, Ne.symm hne]


/-- **C10** (confirmed, implicit behaviour).  The synchronization driver
never acts on `Missing file:` differences: when every difference reported by
the comparator is a missing file, the classification adds nothing to the
copy-back list or the manual-fix list, and a fix-mode run writes nothing to
the template and returns success (`true`). -/
theorem c10_missing_files_not_acted_on (env : DifferEnv)
    (h : ∀ d ∈ compare_directories env.expected_dir env.actual_dir,
      pyStartsWith d "Missing file: " = true) :
    classify_differences env (compare_directories env.expected_dir env.actual_dir)
      = ([], [])
    ∧ compare_with_expected_materialized env true = (true, []) := by
  have hstep : ∀ (st : List (String × String × CopySource) × List (String × String))
      (d : String), pyStartsWith d "Missing file: " = true →
      classify_step env st d = st := by
    intro st d hd
    have hc := pyStartsWith_targets_disjoint d "Missing file: " "Content differs: "
      'M' 'C' (by decide) (by decide) (by decide) hd
    have he := pyStartsWith_targets_disjoint d "Missing file: " "Extra file: "
      'M' 'E' (by decide) (by decide) (by decide) hd
    simp [classify_step, hc, he]
  have hfold : ∀ (l : List String), (∀ d ∈ l, pyStartsWith d "Missing file: " = true) →
      l.foldl (classify_step env) ([], []) = ([], []) := by
    intro l hl
    induction l with
    | nil => rfl
    | cons d t ih =>
      rw [List.foldl_cons, hstep ([], []) d (hl d (by simp))]
      exact ih (fun x hx => hl x (by simp [hx]))
  have hcls : classify_differences env
      (compare_directories env.expected_dir env.actual_dir) = ([], []) := hfold _ h
  refine ⟨hcls, ?_⟩
  simp only [compare_with_expected_materialized, hcls]
  by_cases hd : compare_directories env.expected_dir env.actual_dir = []
  · rw [if_pos hd]
  · rw [if_neg hd]
    simp

/-- **C10** (witness): a run whose single difference is
`Missing file: b.txt` classifies nothing and, in fix mode, writes nothing
and returns success. -/
theorem c10_missing_files_not_acted_on_witness :
    compare_with_expected_materialized differEnvMissing true = (true, []) :=
  (c10_missing_files_not_acted_on differEnvMissing (by decide)).2

/-! ### `find_longest_match`: the result is a block inside the window -/

theorem intRange_eq_nil (lo hi : Int) (h : hi ≤ lo) : intRange lo hi = [] := by
  unfold intRange
  have h0 : (hi - lo).toNat = 0 := by omega
  rw [h0]
  rfl

theorem intRange_eq_cons (lo hi : Int) (h : lo < hi) :
    intRange lo hi = lo :: intRange (lo + 1) hi := by
  unfold intRange
  have h1 : (hi - lo).toNat = (hi - (lo + 1)).toNat + 1 := by omega
  rw [h1, List.range_succ_eq_map]
  simp only [List.map_cons, List.map_map, Nat.cast_zero, add_zero]
  congr 1
  apply List.map_congr_left
  intro x _
  simp only [Function.comp_apply]
  omega

theorem MatchBnds_intro (alo ahi blo bhi bi bjj k : Int) (h1 : 0 < k)
    (h2 : alo ≤ bi) (h3 : blo ≤ bjj) (h4 : bi + k ≤ ahi) (h5 : bjj + k ≤ bhi) :
    MatchBnds alo ahi blo bhi (bi, bjj, k) :=
  Or.inr ⟨h1, h2, h3, h4, h5⟩

theorem MatchBnds_elim (alo ahi blo bhi bi bjj k : Int)
    (h : MatchBnds alo ahi blo bhi (bi, bjj, k)) :
    (bi = alo ∧ bjj = blo ∧ k = 0) ∨
      (0 < k ∧ alo ≤ bi ∧ blo ≤ bjj ∧ bi + k ≤ ahi ∧ bjj + k ≤ bhi) := by
  rcases h with h | h
  · left
    rw [Prod.ext_iff] at h
    rw [Prod.ext_iff] at h
    exact ⟨h.1, h.2.1, h.2.2⟩
  · right
    exact h

theorem flm_inner_bnds (alo ahi blo bhi i c : Int) (old : Int → Int)
    (hold : DRow blo bhi c old) (hc : 0 ≤ c) (hci : c ≤ i - alo)
    (hih : i < ahi) :
    ∀ (js : List Int) (newd : Int → Int) (best : Int × Int × Int),
      DRow blo bhi (c + 1) newd → MatchBnds alo ahi blo bhi best →
      DRow blo bhi (c + 1) (flm_inner i blo bhi old js newd best).1 ∧
      MatchBnds alo ahi blo bhi (flm_inner i blo bhi old js newd best).2 := by
  intro js
  induction js with
  | nil => intro newd best h1 h2; exact ⟨h1, h2⟩
  | cons j js ih =>
    intro newd best h1 h2
    rw [flm_inner]
    by_cases hjlo : j < blo
    · rw [if_pos hjlo]; exact ih newd best h1 h2
    · rw [if_neg hjlo]
      by_cases hjhi : bhi ≤ j
      · rw [if_pos hjhi]; exact ⟨h1, h2⟩
      · rw [if_neg hjhi]
        have hopos : 0 ≤ old (j - 1) := (hold (j - 1)).1
        have hkb1 : old (j - 1) + 1 ≤ j - blo + 1 := by
          rcases eq_or_ne (old (j - 1)) 0 with h0 | h0
          · omega
          · have := (hold (j - 1)).2 h0; omega
        have hkb2 : old (j - 1) + 1 ≤ c + 1 := by
          rcases eq_or_ne (old (j - 1)) 0 with h0 | h0
          · omega
          · have := (hold (j - 1)).2 h0; omega
        have hn' : DRow blo bhi (c + 1)
            (fun x => if x = j then old (j - 1) + 1 else newd x) := by
          intro x
          by_cases hx : x = j
          · simp only [hx, eq_self_iff_true, if_true]
            exact ⟨by omega, fun _ => ⟨by omega, by omega, hkb1, hkb2⟩⟩
          · simp only [if_neg hx]; exact h1 x
        by_cases hbest : best.2.2 < old (j - 1) + 1
        · rw [if_pos hbest]
          apply ih _ _ hn'
          exact MatchBnds_intro alo ahi blo bhi _ _ _ (by omega) (by omega)
            (by omega) (by omega) (by omega)
        · rw [if_neg hbest]
          exact ih _ _ hn' h2

theorem flm_scan_fold_bnds (a : List String) (bj : String → List Int)
    (alo ahi blo bhi : Int) :
    ∀ (n : Nat) (lo : Int) (m : Int → Int) (best : Int × Int × Int),
      (ahi - lo).toNat = n → alo ≤ lo →
      DRow blo bhi (lo - alo) m → MatchBnds alo ahi blo bhi best →
      MatchBnds alo ahi blo bhi
        (((intRange lo ahi).foldl (flm_row a bj blo bhi) (m, best)).2) := by
  intro n
  induction n with
  | zero =>
    intro lo m best hn _ _ hbest
    rw [intRange_eq_nil lo ahi (by omega)]
    exact hbest
  | succ k ih =>
    intro lo m best hn hlo hm hbest
    rw [intRange_eq_cons lo ahi (by omega), List.foldl_cons]
    have hz : DRow blo bhi (lo - alo + 1) (fun _ => (0 : Int)) :=
      fun x => ⟨le_refl 0, fun hx => absurd rfl hx⟩
    have hstep := flm_inner_bnds alo ahi blo bhi lo (lo - alo) m hm (by omega)
      (by omega) (by omega) (bj (pyGetD a lo "")) (fun _ => 0) best hz hbest
    have hd : DRow blo bhi (lo + 1 - alo)
        (flm_inner lo blo bhi m (bj (pyGetD a lo "")) (fun _ => 0) best).1 := by
      intro x
      refine ⟨(hstep.1 x).1, fun hx => ?_⟩
      have h2 := (hstep.1 x).2 hx
      exact ⟨h2.1, h2.2.1, h2.2.2.1, by omega⟩
    have := ih (lo + 1)
      (flm_inner lo blo bhi m (bj (pyGetD a lo "")) (fun _ => 0) best).1
      (flm_inner lo blo bhi m (bj (pyGetD a lo "")) (fun _ => 0) best).2
      (by omega) (by omega) hd hstep.2
    simpa [flm_row] using this

theorem flm_scan_bnds (a : List String) (bj : String → List Int)
    (alo ahi blo bhi : Int) :
    MatchBnds alo ahi blo bhi (flm_scan a bj alo ahi blo bhi) := by
  unfold flm_scan
  exact flm_scan_fold_bnds a bj alo ahi blo bhi (ahi - alo).toNat alo
    (fun _ => 0) (alo, blo, 0) rfl (le_refl alo)
    (fun x => ⟨le_refl 0, fun hx => absurd rfl hx⟩) (Or.inl rfl)

theorem flm_extend_lo_bnds (a b : List String) (alo ahi blo bhi : Int) :
    ∀ (fuel : Nat) (m : Int × Int × Int), MatchBnds alo ahi blo bhi m →
      MatchBnds alo ahi blo bhi (flm_extend_lo a b alo blo fuel m) := by
  intro fuel
  induction fuel with
  | zero => intro m h; exact h
  | succ n ih =>
    rintro ⟨bi, bjj, bs⟩ h
    rw [flm_extend_lo]
    by_cases hg : alo < bi ∧ blo < bjj ∧ pyGetD a (bi - 1) "" = pyGetD b (bjj - 1) ""
    · rw [if_pos hg]
      apply ih
      rcases MatchBnds_elim alo ahi blo bhi bi bjj bs h with h0 | h0
      · exact absurd hg.1 (by omega)
      · exact MatchBnds_intro alo ahi blo bhi _ _ _ (by omega) (by omega)
          (by omega) (by omega) (by omega)
    · rw [if_neg hg]; exact h

theorem flm_extend_hi_bnds (a b : List String) (alo ahi blo bhi : Int) :
    ∀ (fuel : Nat) (m : Int × Int × Int), MatchBnds alo ahi blo bhi m →
      MatchBnds alo ahi blo bhi (flm_extend_hi a b ahi bhi fuel m) := by
  intro fuel
  induction fuel with
  | zero => intro m h; exact h
  | succ n ih =>
    rintro ⟨bi, bjj, bs⟩ h
    rw [flm_extend_hi]
    by_cases hg : bi + bs < ahi ∧ bjj + bs < bhi ∧
        pyGetD a (bi + bs) "" = pyGetD b (bjj + bs) ""
    · rw [if_pos hg]
      apply ih
      rcases MatchBnds_elim alo ahi blo bhi bi bjj bs h with h0 | h0
      · exact MatchBnds_intro alo ahi blo bhi _ _ _ (by omega) (by omega)
          (by omega) (by omega) (by omega)
      · exact MatchBnds_intro alo ahi blo bhi _ _ _ (by omega) (by omega)
          (by omega) (by omega) (by omega)
    · rw [if_neg hg]; exact h

theorem find_longest_match_bnds (a b : List String) (bj : String → List Int)
    (alo ahi blo bhi : Int) :
    MatchBnds alo ahi blo bhi (find_longest_match a b bj alo ahi blo bhi) := by
  unfold find_longest_match
  exact flm_extend_hi_bnds a b alo ahi blo bhi _ _
    (flm_extend_lo_bnds a b alo ahi blo bhi _ _
      (flm_scan_bnds a bj alo ahi blo bhi))

/-! ### `get_matching_blocks`: blocks from disjoint sub-problems are
pairwise compatible -/

theorem rectCompat_symm {r1 r2 : Rect} (h : rectCompat r1 r2) : rectCompat r2 r1 :=
  h.elim Or.inr Or.inl

theorem rectInside_trans {r1 r2 r3 : Rect} (h1 : rectInside r1 r2)
    (h2 : rectInside r2 r3) : rectInside r1 r3 := by
  obtain ⟨a1, a2, a3, a4⟩ := h1
  obtain ⟨b1, b2, b3, b4⟩ := h2
  exact ⟨by omega, by omega, by omega, by omega⟩

theorem rectCompat_of_inside {x q r : Rect} (hx : rectInside x q)
    (h : rectCompat q r) : rectCompat x r := by
  obtain ⟨i1, i2, i3, i4⟩ := hx
  rcases h with ⟨b1, b2⟩ | ⟨b1, b2⟩
  · exact Or.inl ⟨by omega, by omega⟩
  · exact Or.inr ⟨by omega, by omega⟩

theorem getLast?_decomp {α : Type} (l : List α) (x : α) (h : l.getLast? = some x) :
    l = l.dropLast ++ [x] := by
  induction l with
  | nil => simp at h
  | cons a t ih =>
    cases t with
    | nil => simp_all [List.getLast?]
    | cons b t2 =>
      rw [List.getLast?_cons_cons] at h
      have h2 := ih h
      rw [List.dropLast_cons₂, List.cons_append, ← h2]

theorem GmbInv_mono_queue (la lb : Int) (q1 q2 : List (Int × Int × Int × Int))
    (blocks : List (Int × Int × Int)) (h : q1.Sublist q2)
    (hinv : GmbInv la lb q2 blocks) : GmbInv la lb q1 blocks := by
  obtain ⟨h1, h2, h3, h4, h5⟩ := hinv
  exact ⟨h1, List.Pairwise.sublist (h.map intervalRect) h2,
    fun q hq bl hbl => h3 q (h.mem hq) bl hbl, h4,
    fun q hq => h5 q (h.mem hq)⟩

theorem gmb_inv_step (la lb alo ahi blo bhi mi mj mk : Int)
    (rest : List (Int × Int × Int × Int)) (blocks : List (Int × Int × Int))
    (hinv : GmbInv la lb (rest ++ [(alo, ahi, blo, bhi)]) blocks)
    (hb : MatchBnds alo ahi blo bhi (mi, mj, mk)) (hk : mk ≠ 0) :
    GmbInv la lb (rest ++ [(alo, mi, blo, mj), (mi + mk, ahi, mj + mk, bhi)])
      (blocks ++ [(mi, mj, mk)]) := by
  obtain ⟨hBlocks, hQueue, hCross, hBl, hQin⟩ := hinv
  rcases MatchBnds_elim alo ahi blo bhi mi mj mk hb with h0 | hbb
  · exact absurd h0.2.2 hk
  obtain ⟨hk0, hb1, hb2, hb3, hb4⟩ := hbb
  have hqmem : (alo, ahi, blo, bhi) ∈ rest ++ [(alo, ahi, blo, bhi)] := by simp
  have hqG : rectInside (intervalRect (alo, ahi, blo, bhi)) ⟨0, la, 0, lb⟩ :=
    hQin _ hqmem
  obtain ⟨hg1, hg2, hg3, hg4⟩ := hqG
  simp only [intervalRect] at hg1 hg2 hg3 hg4
  -- abbreviations
  have hmq : rectInside (blockRect (mi, mj, mk)) (intervalRect (alo, ahi, blo, bhi)) := by
    simp only [blockRect, intervalRect, rectInside]
    exact ⟨by omega, by omega, by omega, by omega⟩
  have hs1q : rectInside (intervalRect (alo, mi, blo, mj))
      (intervalRect (alo, ahi, blo, bhi)) := by
    simp only [intervalRect, rectInside]
    exact ⟨by omega, by omega, by omega, by omega⟩
  have hs2q : rectInside (intervalRect (mi + mk, ahi, mj + mk, bhi))
      (intervalRect (alo, ahi, blo, bhi)) := by
    simp only [intervalRect, rectInside]
    exact ⟨by omega, by omega, by omega, by omega⟩
  have hs1m : rectBefore (intervalRect (alo, mi, blo, mj)) (blockRect (mi, mj, mk)) := by
    simp only [intervalRect, blockRect, rectBefore]
    exact ⟨by omega, by omega⟩
  have hms2 : rectBefore (blockRect (mi, mj, mk))
      (intervalRect (mi + mk, ahi, mj + mk, bhi)) := by
    simp only [intervalRect, blockRect, rectBefore]
    exact ⟨by omega, by omega⟩
  have hs1s2 : rectBefore (intervalRect (alo, mi, blo, mj))
      (intervalRect (mi + mk, ahi, mj + mk, bhi)) := by
    simp only [intervalRect, rectBefore]
    exact ⟨by omega, by omega⟩
  -- decompose the old queue pairwise property
  rw [List.map_append, List.pairwise_append] at hQueue
  obtain ⟨hRestP, _, hRestQ0⟩ := hQueue
  have hRestQ : ∀ r ∈ rest.map intervalRect,
      rectCompat r (intervalRect (alo, ahi, blo, bhi)) := by
    intro r hr
    exact hRestQ0 r hr _ (by simp)
  have hQB : ∀ bl ∈ blocks,
      rectCompat (intervalRect (alo, ahi, blo, bhi)) (blockRect bl) :=
    fun bl hbl => hCross _ hqmem bl hbl
  refine ⟨?_, ?_, ?_, ?_, ?_⟩
  · -- blocks ++ [m] pairwise
    rw [List.map_append, List.pairwise_append]
    refine ⟨hBlocks, by simp, ?_⟩
    intro x hx y hy
    simp only [List.map_cons, List.map_nil, List.mem_singleton] at hy
    subst hy
    obtain ⟨bl, hbl, rfl⟩ := List.mem_map.1 hx
    exact rectCompat_symm (rectCompat_of_inside hmq (hQB bl hbl))
  · -- new queue pairwise
    rw [List.map_append, List.pairwise_append]
    refine ⟨hRestP, ?_, ?_⟩
    · simp only [List.map_cons, List.map_nil]
      exact List.Pairwise.cons (by
        intro y hy
        simp only [List.mem_singleton] at hy
        subst hy
        exact Or.inl hs1s2) (List.Pairwise.cons (by intro y hy; simp at hy) .nil)
    · intro r hr y hy
      simp only [List.map_cons, List.map_nil, List.mem_cons, List.mem_singleton,
        List.not_mem_nil, or_false] at hy
      have hcq : rectCompat (intervalRect (alo, ahi, blo, bhi)) r :=
        rectCompat_symm (hRestQ r hr)
      rcases hy with rfl | rfl
      · exact rectCompat_symm (rectCompat_of_inside hs1q hcq)
      · exact rectCompat_symm (rectCompat_of_inside hs2q hcq)
  · -- cross: new queue vs new blocks
    intro q hq bl hbl
    rw [List.mem_append] at hq hbl
    simp only [List.mem_cons, List.mem_singleton, List.not_mem_nil, or_false] at hq hbl
    rcases hbl with hbl | rfl
    · rcases hq with hq | hq
      · rcases hq with hq
        exact hCross q (by simp [hq]) bl hbl
      · rcases hq with rfl | rfl
        · exact rectCompat_of_inside hs1q (hQB bl hbl)
        · exact rectCompat_of_inside hs2q (hQB bl hbl)
    · rcases hq with hq | hq
      · have hcq : rectCompat (intervalRect (alo, ahi, blo, bhi)) (intervalRect q) :=
          rectCompat_symm (hRestQ _ (List.mem_map_of_mem intervalRect hq))
        exact rectCompat_symm (rectCompat_of_inside hmq hcq)
      · rcases hq with rfl | rfl
        · exact Or.inl hs1m
        · exact Or.inr hms2
  · -- all blocks non-empty and in bounds
    intro bl hbl
    rw [List.mem_append] at hbl
    simp only [List.mem_singleton] at hbl
    rcases hbl with hbl | rfl
    · exact hBl bl hbl
    · refine ⟨hk0, ?_⟩
      simp only [blockIn]
      exact ⟨by omega, by omega, by omega, by omega, by omega⟩
  · -- new queue entries inside the global rectangle
    intro q hq
    rw [List.mem_append] at hq
    simp only [List.mem_cons, List.mem_singleton, List.not_mem_nil, or_false] at hq
    rcases hq with hq | hq
    · exact hQin q (by simp [hq])
    · rcases hq with rfl | rfl
      · exact rectInside_trans hs1q (hQin _ hqmem)
      · exact rectInside_trans hs2q (hQin _ hqmem)

theorem gmb_loop_ok (a b : List String) (bj : String → List Int) (la lb : Int) :
    ∀ (fuel : Nat) (queue : List (Int × Int × Int × Int))
      (blocks : List (Int × Int × Int)),
      GmbInv la lb queue blocks → BlocksOk la lb (gmb_loop a b bj fuel queue blocks) := by
  intro fuel
  induction fuel with
  | zero => intro queue blocks hinv; exact ⟨hinv.1, hinv.2.2.2.1⟩
  | succ n ih =>
    intro queue blocks hinv
    cases hq : queue.getLast? with
    | none =>
      rw [gmb_loop, hq]
      exact ⟨hinv.1, hinv.2.2.2.1⟩
    | some q =>
      obtain ⟨alo, ahi, blo, bhi⟩ := q
      have hdecomp := getLast?_decomp queue _ hq
      rw [gmb_loop, hq]
      dsimp only
      rcases hm : find_longest_match a b bj alo ahi blo bhi with ⟨mi, mjk⟩
      rcases mjk with ⟨mj, mk⟩
      have hb := find_longest_match_bnds a b bj alo ahi blo bhi
      rw [hm] at hb
      by_cases hk : mk ≠ 0
      · rw [if_pos hk]
        have hstep := gmb_inv_step la lb alo ahi blo bhi mi mj mk
          queue.dropLast blocks (hdecomp ▸ hinv) hb hk
        by_cases hg1 : alo < mi ∧ blo < mj
        · rw [if_pos hg1]
          by_cases hg2 : mi + mk < ahi ∧ mj + mk < bhi
          · rw [if_pos hg2]
            apply ih
            simpa [List.append_assoc] using hstep
          · rw [if_neg hg2]
            apply ih
            exact GmbInv_mono_queue la lb _ _ _
              ((List.append_sublist_append_left _).2
                ((List.nil_sublist _).cons₂ _)) hstep
        · rw [if_neg hg1]
          by_cases hg2 : mi + mk < ahi ∧ mj + mk < bhi
          · rw [if_pos hg2]
            apply ih
            exact GmbInv_mono_queue la lb _ _ _
              ((List.append_sublist_append_left _).2
                (List.Sublist.cons _ ((List.nil_sublist _).cons₂ _))) hstep
          · rw [if_neg hg2]
            apply ih
            exact GmbInv_mono_queue la lb _ _ _
              (List.sublist_append_left _ _) hstep
      · rw [if_neg hk]
        apply ih
        exact GmbInv_mono_queue la lb _ _ _ (List.dropLast_sublist queue) hinv

/-! ### Sorting and collapsing the blocks yields a chain -/

theorem block_le_total (x y : Int × Int × Int) (h : ¬ block_le x y) : block_le y x := by
  unfold block_le at h ⊢
  omega

theorem block_le_trans (x y z : Int × Int × Int) (h1 : block_le x y)
    (h2 : block_le y z) : block_le x z := by
  unfold block_le at h1 h2 ⊢
  omega

theorem mem_insert_block (x z : Int × Int × Int) (l : List (Int × Int × Int)) :
    z ∈ insert_block x l ↔ z = x ∨ z ∈ l := by
  induction l with
  | nil => simp [insert_block]
  | cons y ys ih =>
    rw [insert_block]
    by_cases h : block_le x y
    · rw [if_pos h]
      exact List.mem_cons
    · rw [if_neg h]
      rw [List.mem_cons, ih, List.mem_cons]
      tauto

theorem insert_block_perm (x : Int × Int × Int) (l : List (Int × Int × Int)) :
    (insert_block x l).Perm (x :: l) := by
  induction l with
  | nil => simp [insert_block]
  | cons y ys ih =>
    rw [insert_block]
    by_cases h : block_le x y
    · rw [if_pos h]
    · rw [if_neg h]
      exact (ih.cons y).trans (List.Perm.swap x y ys)

theorem sort_blocks_perm (l : List (Int × Int × Int)) : (sort_blocks l).Perm l := by
  induction l with
  | nil => rfl
  | cons x xs ih =>
    rw [sort_blocks]
    exact (insert_block_perm x (sort_blocks xs)).trans (ih.cons x)

theorem insert_block_sorted (x : Int × Int × Int) (l : List (Int × Int × Int))
    (h : List.Pairwise block_le l) :
    List.Pairwise block_le (insert_block x l) := by
  induction l with
  | nil => simp [insert_block]
  | cons y ys ih =>
    rw [insert_block]
    by_cases hle : block_le x y
    · rw [if_pos hle]
      refine List.Pairwise.cons ?_ h
      intro z hz
      rcases List.mem_cons.1 hz with rfl | hz
      · exact hle
      · exact block_le_trans x y z hle (List.rel_of_pairwise_cons h hz)
    · rw [if_neg hle]
      refine List.Pairwise.cons ?_ (ih h.tail)
      intro z hz
      rcases (mem_insert_block x z ys).1 hz with rfl | hz
      · exact block_le_total z y hle
      · exact List.rel_of_pairwise_cons h hz

theorem sort_blocks_sorted (l : List (Int × Int × Int)) :
    List.Pairwise block_le (sort_blocks l) := by
  induction l with
  | nil => exact .nil
  | cons x xs ih => exact insert_block_sorted x (sort_blocks xs) ih

theorem chainLe_of_le_compat (x y : Int × Int × Int) (hx : 0 < x.2.2)
    (hy : 0 < y.2.2) (hle : block_le x y)
    (hc : rectCompat (blockRect x) (blockRect y)) : chainLe x y := by
  rcases hc with ⟨h1, h2⟩ | ⟨h1, h2⟩
  · simp only [blockRect] at h1 h2
    exact ⟨h1, h2⟩
  · simp only [blockRect] at h1 h2
    unfold block_le at hle
    unfold chainLe
    omega

theorem sort_blocks_chain (l : List (Int × Int × Int))
    (hk : ∀ x ∈ l, 0 < x.2.2)
    (hp : List.Pairwise rectCompat (l.map blockRect)) :
    List.Pairwise chainLe (sort_blocks l) := by
  have hperm := sort_blocks_perm l
  have hp' : List.Pairwise (fun u v => rectCompat (blockRect u) (blockRect v)) l :=
    List.pairwise_map.1 hp
  have hsymm : ∀ {u v : Int × Int × Int},
      rectCompat (blockRect u) (blockRect v) → rectCompat (blockRect v) (blockRect u) :=
    fun h => rectCompat_symm h
  have hps : List.Pairwise (fun u v => rectCompat (blockRect u) (blockRect v))
      (sort_blocks l) := (hperm.pairwise_iff hsymm).2 hp'
  have hand := (sort_blocks_sorted l).and hps
  refine hand.imp_of_mem ?_
  intro u v hu hv huv
  exact chainLe_of_le_compat u v (hk u (hperm.mem_iff.1 hu)) (hk v (hperm.mem_iff.1 hv))
    huv.1 huv.2

theorem collapse_fold_ok (la lb : Int) :
    ∀ (l : List (Int × Int × Int)) (cur : Int × Int × Int)
      (acc : List (Int × Int × Int)),
      List.Pairwise chainLe l →
      (∀ x ∈ l, blockIn la lb x) →
      (∀ x ∈ l, chainLe cur x) →
      List.Pairwise chainLe acc →
      (∀ x ∈ acc, 0 < x.2.2 ∧ blockIn la lb x) →
      (∀ x ∈ acc, chainLe x cur) →
      blockIn la lb cur →
      List.Pairwise chainLe ((l.foldl collapse_step (cur, acc)).2) ∧
      (∀ x ∈ (l.foldl collapse_step (cur, acc)).2, 0 < x.2.2 ∧ blockIn la lb x) ∧
      (∀ x ∈ (l.foldl collapse_step (cur, acc)).2,
        chainLe x (l.foldl collapse_step (cur, acc)).1) ∧
      blockIn la lb (l.foldl collapse_step (cur, acc)).1 := by
  intro l
  induction l with
  | nil =>
    intro cur acc _ _ _ hap ham hac hcur
    exact ⟨hap, ham, hac, hcur⟩
  | cons blk rest ih =>
    intro cur acc hp hin hcl hap ham hac hcur
    rw [List.foldl_cons]
    have hblk : blockIn la lb blk := hin blk (by simp)
    have hcb : chainLe cur blk := hcl blk (by simp)
    rw [collapse_step]
    by_cases hm : cur.1 + cur.2.2 = blk.1 ∧ cur.2.1 + cur.2.2 = blk.2.1
    · rw [if_pos hm]
      dsimp only
      apply ih
      · exact hp.tail
      · exact fun x hx => hin x (by simp [hx])
      · intro x hx
        have hbx := List.rel_of_pairwise_cons hp hx
        unfold chainLe at hbx ⊢
        unfold blockIn at hblk
        dsimp only
        obtain ⟨hm1, hm2⟩ := hm
        exact ⟨by omega, by omega⟩
      · exact hap
      · exact ham
      · intro x hx
        have := hac x hx
        unfold chainLe at this ⊢
        unfold blockIn at hcur
        dsimp only
        exact ⟨by omega, by omega⟩
      · unfold blockIn at hblk hcur ⊢
        dsimp only
        obtain ⟨hm1, hm2⟩ := hm
        refine ⟨by omega, by omega, by omega, by omega, by omega⟩
    · rw [if_neg hm]
      dsimp only
      by_cases hz : cur.2.2 ≠ 0
      · rw [if_pos hz]
        apply ih
        · exact hp.tail
        · exact fun x hx => hin x (by simp [hx])
        · intro x hx
          exact List.rel_of_pairwise_cons hp hx
        · rw [List.pairwise_append]
          refine ⟨hap, by simp, ?_⟩
          intro x hx y hy
          simp only [List.mem_singleton] at hy
          subst hy
          exact hac x hx
        · intro x hx
          rcases List.mem_append.1 hx with hx | hx
          · exact ham x hx
          · simp only [List.mem_singleton] at hx
            subst hx
            refine ⟨?_, hcur⟩
            have := hcur.2.2.1
            unfold blockIn at hcur
            omega
        · intro x hx
          rcases List.mem_append.1 hx with hx | hx
          · have h1 := hac x hx
            unfold chainLe at h1 ⊢
            unfold blockIn at hcur
            unfold chainLe at hcb
            exact ⟨by omega, by omega⟩
          · simp only [List.mem_singleton] at hx
            subst hx
            exact hcb
        · exact hblk
      · rw [if_neg hz]
        apply ih
        · exact hp.tail
        · exact fun x hx => hin x (by simp [hx])
        · intro x hx
          exact List.rel_of_pairwise_cons hp hx
        · exact hap
        · exact ham
        · intro x hx
          have h1 := hac x hx
          unfold chainLe at h1 ⊢
          unfold blockIn at hcur
          unfold chainLe at hcb
          exact ⟨by omega, by omega⟩
        · exact hblk

theorem collapse_blocks_ok (la lb : Int) (hla : 0 ≤ la) (hlb : 0 ≤ lb)
    (l : List (Int × Int × Int))
    (hp : List.Pairwise chainLe l)
    (hk : ∀ x ∈ l, 0 < x.2.2)
    (hin : ∀ x ∈ l, blockIn la lb x) :
    List.Pairwise chainLe (collapse_blocks l) ∧
    (∀ x ∈ collapse_blocks l, 0 < x.2.2 ∧ blockIn la lb x) ∧
    (∀ x ∈ collapse_blocks l, x.1 + x.2.2 ≤ la ∧ x.2.1 + x.2.2 ≤ lb) := by
  have hbase := collapse_fold_ok la lb l (0, 0, 0) [] hp hin
    (by
      intro x hx
      have := hin x hx
      unfold blockIn at this
      unfold chainLe
      dsimp only
      exact ⟨by omega, by omega⟩)
    .nil (by simp) (by simp)
    (by
      unfold blockIn
      dsimp only
      exact ⟨by omega, by omega, by omega, by omega, by omega⟩)
  obtain ⟨h1, h2, h3, h4⟩ := hbase
  unfold collapse_blocks
  by_cases hz : (l.foldl collapse_step ((0, 0, 0), [])).1.2.2 ≠ 0
  · rw [if_pos hz]
    refine ⟨?_, ?_, ?_⟩
    · rw [List.pairwise_append]
      refine ⟨h1, by simp, ?_⟩
      intro x hx y hy
      simp only [List.mem_singleton] at hy
      subst hy
      exact h3 x hx
    · intro x hx
      rcases List.mem_append.1 hx with hx | hx
      · exact h2 x hx
      · simp only [List.mem_singleton] at hx
        subst hx
        refine ⟨?_, h4⟩
        unfold blockIn at h4
        omega
    · intro x hx
      rcases List.mem_append.1 hx with hx | hx
      · have := (h2 x hx).2
        unfold blockIn at this
        exact ⟨this.2.2.2.1, this.2.2.2.2⟩
      · simp only [List.mem_singleton] at hx
        subst hx
        unfold blockIn at h4
        exact ⟨h4.2.2.2.1, h4.2.2.2.2⟩
  · rw [if_neg hz]
    refine ⟨h1, h2, ?_⟩
    intro x hx
    have := (h2 x hx).2
    unfold blockIn at this
    exact ⟨this.2.2.2.1, this.2.2.2.2⟩

/-! ### From a chain of blocks to the opcode walk -/

theorem opcodes_step_acc (ij : Int × Int) (acc : List (String × Int × Int × Int × Int))
    (blk : Int × Int × Int) :
    opcodes_step (ij, acc) blk
      = ((opcodes_step (ij, []) blk).1, acc ++ (opcodes_step (ij, []) blk).2) := by
  rcases ij with ⟨i, j⟩
  rw [opcodes_step, opcodes_step]
  dsimp only
  by_cases ht : (if i < blk.1 ∧ j < blk.2.1 then "replace"
      else if i < blk.1 then "delete" else if j < blk.2.1 then "insert" else "") ≠ ""
  · rw [if_pos ht, if_pos ht]
    by_cases hs : blk.2.2 ≠ 0
    · rw [if_pos hs, if_pos hs]
      simp [List.append_assoc]
    · rw [if_neg hs, if_neg hs]
      simp
  · rw [if_neg ht, if_neg ht]
    by_cases hs : blk.2.2 ≠ 0
    · rw [if_pos hs, if_pos hs]
      simp
    · rw [if_neg hs, if_neg hs]
      simp

theorem opcodes_fold_acc :
    ∀ (B : List (Int × Int × Int)) (ij : Int × Int)
      (acc : List (String × Int × Int × Int × Int)),
      B.foldl opcodes_step (ij, acc)
        = ((B.foldl opcodes_step (ij, [])).1, acc ++ (B.foldl opcodes_step (ij, [])).2) := by
  intro B
  induction B with
  | nil => intro ij acc; simp
  | cons blk rest ih =>
    intro ij acc
    rw [List.foldl_cons, List.foldl_cons, opcodes_step_acc]
    rcases hst : opcodes_step (ij, []) blk with ⟨ij', em⟩
    rw [ih ij' (acc ++ em), ih ij' em]
    simp [List.append_assoc]

theorem OpsWalk_cons_tag (la lb i j ai bjv : Int)
    (ops : List (String × Int × Int × Int × Int)) (tag : String)
    (h1 : i ≤ ai) (h2 : j ≤ bjv) (h3 : ai ≤ la) (h4 : bjv ≤ lb)
    (htag : tag = "replace" ∨ tag = "delete" ∨ tag = "insert")
    (hops : OpsWalk la lb ai bjv ops) :
    OpsWalk la lb i j ((tag, i, ai, j, bjv) :: ops) := by
  refine ⟨rfl, rfl, h1, h2, h3, h4, ?_, Or.inr htag, hops⟩
  intro heq
  rcases htag with rfl | rfl | rfl <;> exact absurd heq (by decide)

theorem OpsWalk_cons_equal (la lb ai bjv sz : Int)
    (ops : List (String × Int × Int × Int × Int))
    (h0 : 0 ≤ sz) (h3 : ai + sz ≤ la) (h4 : bjv + sz ≤ lb)
    (hops : OpsWalk la lb (ai + sz) (bjv + sz) ops) :
    OpsWalk la lb ai bjv (("equal", ai, ai + sz, bjv, bjv + sz) :: ops) := by
  exact ⟨rfl, rfl, by omega, by omega, h3, h4, fun _ => by omega, Or.inl rfl, hops⟩

theorem opcodes_walk (la lb : Int) :
    ∀ (B : List (Int × Int × Int)) (i j : Int),
      0 ≤ i → 0 ≤ j →
      List.Pairwise chainLe B →
      (∀ x ∈ B, blockIn la lb x) →
      (∀ x ∈ B, i ≤ x.1 ∧ j ≤ x.2.1) →
      ((B = [] ∧ i = la ∧ j = lb) ∨ B.getLast? = some ((la, lb, 0) : Int × Int × Int)) →
      OpsWalk la lb i j ((B.foldl opcodes_step ((i, j), [])).2) := by
  intro B
  induction B with
  | nil =>
    intro i j _ _ _ _ _ hterm
    rcases hterm with ⟨_, h1, h2⟩ | h
    · subst h1; subst h2
      exact ⟨rfl, rfl⟩
    · simp at h
  | cons blk rest ih =>
    rintro i j hi0 hj0 hp hin hfirst hterm
    obtain ⟨ai, bjv, sz⟩ := blk
    have hblk := hin (ai, bjv, sz) (by simp)
    unfold blockIn at hblk
    dsimp only at hblk
    obtain ⟨hai0, hbj0, hsz0, haila, hbjlb⟩ := hblk
    have hfb := hfirst (ai, bjv, sz) (by simp)
    dsimp only at hfb
    obtain ⟨hiai, hjbj⟩ := hfb
    have hterm' : (rest = [] ∧ ai + sz = la ∧ bjv + sz = lb) ∨
        rest.getLast? = some ((la, lb, 0) : Int × Int × Int) := by
      rcases hterm with ⟨hnil, _, _⟩ | hlast
      · exact absurd hnil (by simp)
      · cases rest with
        | nil =>
          left
          simp only [List.getLast?_singleton, Option.some.injEq] at hlast
          rw [Prod.ext_iff] at hlast
          rw [Prod.ext_iff] at hlast
          refine ⟨rfl, ?_, ?_⟩ <;>
            · obtain ⟨e1, e2, e3⟩ := hlast
              dsimp only at e1 e2 e3
              omega
        | cons r rs =>
          right
          rw [List.getLast?_cons_cons] at hlast
          exact hlast
    have hih := ih (ai + sz) (bjv + sz) (by omega) (by omega) hp.tail
      (fun x hx => hin x (by simp [hx]))
      (fun x hx => by
        have hcl := List.rel_of_pairwise_cons hp hx
        unfold chainLe at hcl
        dsimp only at hcl
        exact ⟨by omega, by omega⟩)
      hterm'
    rw [List.foldl_cons, opcodes_step]
    dsimp only
    rw [opcodes_fold_acc]
    dsimp only
    by_cases hca : i < ai
    · by_cases hcb : j < bjv
      · -- replace
        have htag : (if i < ai ∧ j < bjv then "replace"
            else if i < ai then "delete" else if j < bjv then "insert" else "")
            = "replace" := if_pos ⟨hca, hcb⟩
        rw [htag, if_pos (by decide : ("replace" : String) ≠ "")]
        by_cases hsz : sz ≠ 0
        · rw [if_pos hsz]
          simp only [List.nil_append, List.cons_append, List.append_nil]
          exact OpsWalk_cons_tag la lb i j ai bjv _ _ (by omega) (by omega)
            (by omega) (by omega) (Or.inl rfl)
            (OpsWalk_cons_equal la lb ai bjv sz _ (by omega) (by omega) (by omega) hih)
        · rw [if_neg hsz]
          have hsz' : sz = 0 := by omega
          subst hsz'
          simp only [add_zero] at hih ⊢
          simp only [List.nil_append, List.cons_append]
          exact OpsWalk_cons_tag la lb i j ai bjv _ _ (by omega) (by omega)
            (by omega) (by omega) (Or.inl rfl) hih
      · -- delete
        have htag : (if i < ai ∧ j < bjv then "replace"
            else if i < ai then "delete" else if j < bjv then "insert" else "")
            = "delete" := by
          rw [if_neg (by tauto), if_pos hca]
        rw [htag, if_pos (by decide : ("delete" : String) ≠ "")]
        by_cases hsz : sz ≠ 0
        · rw [if_pos hsz]
          simp only [List.nil_append, List.cons_append, List.append_nil]
          exact OpsWalk_cons_tag la lb i j ai bjv _ _ (by omega) (by omega)
            (by omega) (by omega) (Or.inr (Or.inl rfl))
            (OpsWalk_cons_equal la lb ai bjv sz _ (by omega) (by omega) (by omega) hih)
        · rw [if_neg hsz]
          have hsz' : sz = 0 := by omega
          subst hsz'
          simp only [add_zero] at hih ⊢
          simp only [List.nil_append, List.cons_append]
          exact OpsWalk_cons_tag la lb i j ai bjv _ _ (by omega) (by omega)
            (by omega) (by omega) (Or.inr (Or.inl rfl)) hih
    · have hiai' : i = ai := by omega
      by_cases hcb : j < bjv
      · -- insert
        have htag : (if i < ai ∧ j < bjv then "replace"
            else if i < ai then "delete" else if j < bjv then "insert" else "")
            = "insert" := by
          rw [if_neg (by tauto), if_neg hca, if_pos hcb]
        rw [htag, if_pos (by decide : ("insert" : String) ≠ "")]
        by_cases hsz : sz ≠ 0
        · rw [if_pos hsz]
          simp only [List.nil_append, List.cons_append, List.append_nil]
          exact OpsWalk_cons_tag la lb i j ai bjv _ _ (by omega) (by omega)
            (by omega) (by omega) (Or.inr (Or.inr rfl))
            (OpsWalk_cons_equal la lb ai bjv sz _ (by omega) (by omega) (by omega) hih)
        · rw [if_neg hsz]
          have hsz' : sz = 0 := by omega
          subst hsz'
          simp only [add_zero] at hih ⊢
          simp only [List.nil_append, List.cons_append]
          exact OpsWalk_cons_tag la lb i j ai bjv _ _ (by omega) (by omega)
            (by omega) (by omega) (Or.inr (Or.inr rfl)) hih
      · -- no tag: i = ai, j = bjv
        have hjbj' : j = bjv := by omega
        have htag : (if i < ai ∧ j < bjv then "replace"
            else if i < ai then "delete" else if j < bjv then "insert" else "")
            = "" := by
          rw [if_neg (by tauto), if_neg hca, if_neg hcb]
        rw [htag, if_neg (by decide : ¬ ("" : String) ≠ "")]
        by_cases hsz : sz ≠ 0
        · rw [if_pos hsz]
          simp only [List.nil_append, List.cons_append]
          subst hiai'
          subst hjbj'
          exact OpsWalk_cons_equal la lb i j sz _ (by omega) (by omega) (by omega) hih
        · rw [if_neg hsz]
          have hsz' : sz = 0 := by omega
          subst hsz'
          simp only [add_zero] at hih ⊢
          simp only [List.nil_append]
          subst hiai'
          subst hjbj'
          exact hih

theorem get_opcodes_walk (a b : List String) :
    OpsWalk (a.length : Int) (b.length : Int) 0 0 (get_opcodes a b) := by
  have hla : (0 : Int) ≤ (a.length : Int) := Int.ofNat_nonneg _
  have hlb : (0 : Int) ≤ (b.length : Int) := Int.ofNat_nonneg _
  have hraw : BlocksOk (a.length : Int) (b.length : Int)
      (gmb_loop a b (b2j b) (a.length + b.length + 1)
        [((0 : Int), (a.length : Int), (0 : Int), (b.length : Int))] []) := by
    apply gmb_loop_ok
    refine ⟨by simp, ?_, by simp, by simp, ?_⟩
    · simp only [List.map_cons, List.map_nil]
      exact List.pairwise_singleton _ _
    · intro q hq
      simp only [List.mem_singleton] at hq
      subst hq
      exact ⟨le_refl _, le_refl _, le_refl _, le_refl _⟩
  obtain ⟨hpc, hkin⟩ := hraw
  have hchain := sort_blocks_chain _ (fun x hx => (hkin x hx).1) hpc
  have hsmem : ∀ x ∈ sort_blocks (gmb_loop a b (b2j b) (a.length + b.length + 1)
      [((0 : Int), (a.length : Int), (0 : Int), (b.length : Int))] []),
      0 < x.2.2 ∧ blockIn (a.length : Int) (b.length : Int) x :=
    fun x hx => hkin x ((sort_blocks_perm _).mem_iff.1 hx)
  have hcol := collapse_blocks_ok (a.length : Int) (b.length : Int) hla hlb _
    hchain (fun x hx => (hsmem x hx).1) (fun x hx => (hsmem x hx).2)
  obtain ⟨hcp, hcm, hce⟩ := hcol
  unfold get_opcodes
  unfold get_matching_blocks
  apply opcodes_walk
  · exact le_refl 0
  · exact le_refl 0
  · rw [List.pairwise_append]
    refine ⟨hcp, by simp, ?_⟩
    intro x hx y hy
    simp only [List.mem_singleton] at hy
    subst hy
    have := hce x hx
    unfold chainLe
    dsimp only
    exact ⟨by omega, by omega⟩
  · intro x hx
    rcases List.mem_append.1 hx with hx | hx
    · exact (hcm x hx).2
    · simp only [List.mem_singleton] at hx
      subst hx
      unfold blockIn
      dsimp only
      exact ⟨by omega, by omega, by omega, by omega, by omega⟩
  · intro x hx
    rcases List.mem_append.1 hx with hx | hx
    · have := (hcm x hx).2
      unfold blockIn at this
      exact ⟨this.1, this.2.1⟩
    · simp only [List.mem_singleton] at hx
      subst hx
      dsimp only
      exact ⟨hla, hlb⟩
  · right
    exact List.getLast?_concat _

/-! ### Splitlines / join inversion for terminator-free lines -/

theorem splitCore_rn (cs : List Char) :
    pySplitlinesCore ('\r' :: '\n' :: cs) = [] :: pySplitlinesCore cs := rfl

theorem splitCore_cons_notterm (c : Char) (cs : List Char) (hc : isLineTerm c = false) :
    pySplitlinesCore (c :: cs) =
      (match pySplitlinesCore cs with
       | [] => [[c]]
       | l :: ls => (c :: l) :: ls) := by
  have hr : c ≠ '\r' := by
    intro h; subst h; exact absurd hc (by decide)
  rw [pySplitlinesCore.eq_def]
  split
  · simp_all
  · rename_i heq; injection heq with h1 h2; exact absurd h1 hr
  · rename_i heq; injection heq with h1 h2; subst h1; subst h2
    rw [if_neg (by simp [hc])]

theorem splitCore_cons_term (c : Char) (cs : List Char) (hc : isLineTerm c = true)
    (hno : ∀ cs2, c = '\r' → cs = '\n' :: cs2 → False) :
    pySplitlinesCore (c :: cs) = [] :: pySplitlinesCore cs := by
  rw [pySplitlinesCore.eq_def]
  split
  · simp_all
  · rename_i heq; injection heq with h1 h2; exact absurd (hno _ h1 h2) (fun h => h)
  · rename_i heq; injection heq with h1 h2; subst h1; subst h2
    rw [if_pos (by simp [hc])]

theorem splitCore_termfree :
    ∀ (cs : List Char), ∀ l ∈ pySplitlinesCore cs, TermFree l := by
  intro cs
  induction cs using pySplitlinesCore.induct with
  | case1 => intro l hl; simp [pySplitlinesCore] at hl
  | case2 cs ih =>
    intro l hl
    rw [splitCore_rn] at hl
    rcases List.mem_cons.1 hl with rfl | hl
    · intro c hc; simp at hc
    · exact ih l hl
  | case3 c cs hno hterm ih =>
    intro l hl
    rw [splitCore_cons_term c cs hterm hno] at hl
    rcases List.mem_cons.1 hl with rfl | hl
    · intro c hc; simp at hc
    · exact ih l hl
  | case4 c cs hno hterm hnil ih =>
    intro l hl
    rw [splitCore_cons_notterm c cs (by simpa using hterm), hnil] at hl
    have : l = [c] := by simpa using hl
    subst this
    intro d hd
    have : d = c := by simpa using hd
    subst this
    simpa using hterm
  | case5 c cs hno hterm l0 ls0 heq ih =>
    intro l hl
    rw [splitCore_cons_notterm c cs (by simpa using hterm), heq] at hl
    rcases List.mem_cons.1 hl with rfl | hl
    · have hl0 : TermFree l0 := ih l0 (by rw [heq]; exact List.mem_cons_self _ _)
      intro d hd
      rcases List.mem_cons.1 hd with rfl | hd
      · simpa using hterm
      · exact hl0 d hd
    · exact ih l (by rw [heq]; exact List.mem_cons_of_mem _ hl)

theorem core_append_nl (rest : List Char) :
    ∀ (l : List Char), TermFree l →
      pySplitlinesCore (l ++ '\n' :: rest) = l :: pySplitlinesCore rest := by
  intro l
  induction l with
  | nil => intro _; rfl
  | cons c l ih =>
    intro hl
    have hc : isLineTerm c = false := hl c (List.mem_cons_self _ _)
    have hl' : TermFree l := fun d hd => hl d (List.mem_cons_of_mem _ hd)
    show pySplitlinesCore (c :: (l ++ '\n' :: rest)) = _
    rw [splitCore_cons_notterm c _ hc, ih hl']

theorem splitCore_joinT :
    ∀ (L : List (List Char)), (∀ l ∈ L, TermFree l) →
      pySplitlinesCore (joinT L) = L := by
  intro L
  induction L with
  | nil => intro _; rfl
  | cons l L ih =>
    intro h
    show pySplitlinesCore (l ++ '\n' :: joinT L) = _
    rw [core_append_nl _ l (h l (List.mem_cons_self _ _)),
      ih (fun x hx => h x (List.mem_cons_of_mem _ hx))]

theorem joinT_concat (L : List (List Char)) (x : List Char) :
    joinT (L ++ [x]) = joinT L ++ x ++ ['\n'] := by
  induction L with
  | nil => simp [joinT]
  | cons l L ih =>
    show l ++ '\n' :: joinT (L ++ [x]) = _
    rw [ih]
    simp [joinT]

theorem joinNl_concat (L : List (List Char)) (x : List Char) :
    joinNl (L ++ [x]) = joinT L ++ x := by
  induction L with
  | nil => rfl
  | cons l L ih =>
    cases L with
    | nil => simp [joinNl, joinT]
    | cons l2 L2 =>
      show l ++ '\n' :: joinNl ((l2 :: L2) ++ [x]) = _
      rw [ih]
      simp [joinT]

theorem joinT_eq_joinNl (L : List (List Char)) (h : L ≠ []) :
    joinT L = joinNl L ++ ['\n'] := by
  induction L with
  | nil => exact absurd rfl h
  | cons l L ih =>
    cases L with
    | nil => rfl
    | cons l2 L2 =>
      show l ++ '\n' :: joinT (l2 :: L2) = (l ++ '\n' :: joinNl (l2 :: L2)) ++ ['\n']
      rw [ih (by simp)]
      simp

theorem map_mk_toList (xs : List String) :
    (xs.map String.toList).map String.mk = xs := by
  induction xs with
  | nil => rfl
  | cons x xs ih =>
    show String.mk x.toList :: (xs.map String.toList).map String.mk = x :: xs
    rw [ih]
    rfl

theorem filter_sub_splitlines_body (ls : List String)
    (h : ∀ l ∈ ls, TermFree l.toList) :
    (ls.filter _line_has_jinja_markers).Sublist
      (pySplitlines (if pyEndsWith (joinLines ls) "\n" then joinLines ls
                     else joinLines ls ++ "\n")) := by
  rcases List.eq_nil_or_concat ls with rfl | ⟨ls1, a, hcat⟩
  · simpa using List.nil_sublist _
  rw [List.concat_eq_append] at hcat
  subst hcat
  have hjoin : (joinLines (ls1 ++ [a])).toList
      = joinT (ls1.map String.toList) ++ a.toList := by
    show joinNl ((ls1 ++ [a]).map String.toList) = _
    rw [List.map_append]
    exact joinNl_concat _ _
  by_cases hend : pyEndsWith (joinLines (ls1 ++ [a])) "\n" = true
  · rw [if_pos hend]
    have hendl : List.isPrefixOf ['\n']
        ((joinLines (ls1 ++ [a])).toList.reverse) = true := hend
    rw [hjoin] at hendl
    have ha : a.toList = [] := by
      rcases List.eq_nil_or_concat a.toList with ha | ⟨as, c, hac⟩
      · exact ha
      exfalso
      rw [List.concat_eq_append] at hac
      rw [hac] at hendl
      rw [← List.append_assoc, List.reverse_append] at hendl
      simp only [List.reverse_cons, List.reverse_nil, List.nil_append,
        List.cons_append, List.isPrefixOf] at hendl
      have hcn : c = '\n' := by
        by_cases hcc : c = '\n'
        · exact hcc
        · exfalso
          rw [Bool.and_eq_true, beq_iff_eq] at hendl
          exact hcc hendl.1.symm
      have hcm : c ∈ a.toList := by
        rw [hac]; exact List.mem_append.2 (Or.inr (List.mem_singleton.2 rfl))
      have := h a (List.mem_append.2 (Or.inr (List.mem_singleton.2 rfl))) c hcm
      rw [hcn] at this
      exact absurd this (by decide)
    have hma : _line_has_jinja_markers a = false := by
      simp only [_line_has_jinja_markers, pyInStr]
      rw [ha]
      rfl
    have hne : ls1 ≠ [] := by
      rintro rfl
      rw [ha] at hendl
      simp [joinT, List.isPrefixOf] at hendl
    have htf : ∀ l ∈ ls1.map String.toList, TermFree l := by
      intro l hl
      rcases List.mem_map.1 hl with ⟨x, hx, rfl⟩
      exact h x (List.mem_append.2 (Or.inl hx))
    have hsplit : pySplitlines (joinLines (ls1 ++ [a])) = ls1 := by
      unfold pySplitlines
      rw [hjoin, ha, List.append_nil, splitCore_joinT _ htf, map_mk_toList]
    rw [hsplit, List.filter_append]
    have hfa : List.filter _line_has_jinja_markers [a] = [] := by
      simp [hma]
    rw [hfa, List.append_nil]
    exact List.filter_sublist _
  · rw [if_neg hend]
    have hj2 : (joinLines (ls1 ++ [a]) ++ "\n").toList
        = joinT ((ls1 ++ [a]).map String.toList) := by
      show (joinLines (ls1 ++ [a])).toList ++ ['\n'] = _
      rw [hjoin, List.map_append,
        show List.map String.toList [a] = [a.toList] from rfl, joinT_concat]
    have htf : ∀ l ∈ (ls1 ++ [a]).map String.toList, TermFree l := by
      intro l hl
      rcases List.mem_map.1 hl with ⟨x, hx, rfl⟩
      exact h x hx
    have hsplit : pySplitlines (joinLines (ls1 ++ [a]) ++ "\n") = ls1 ++ [a] := by
      unfold pySplitlines
      rw [hj2, splitCore_joinT _ htf, map_mk_toList]
    rw [hsplit]
    exact List.filter_sublist _

/-! ### Slice edits preserve the Jinja-marked lines -/

theorem mem_intRange (t lo hi : Int) : t ∈ intRange lo hi ↔ lo ≤ t ∧ t < hi := by
  unfold intRange
  simp only [List.mem_map, List.mem_range]
  constructor
  · rintro ⟨k, hk, rfl⟩; omega
  · intro h
    exact ⟨(t - lo).toNat, by omega, by omega⟩

theorem pyGetSlice_subset {α : Type} (l : List α) (s e : Int) :
    ∀ x ∈ pyGetSlice l s e, x ∈ l := by
  intro x hx
  unfold pyGetSlice at hx
  exact List.mem_of_mem_take (List.mem_of_mem_drop hx)

theorem filter_setSlice_insert (P : String → Bool) (l xs : List String) (s : Int) :
    (l.filter P).Sublist ((pySetSlice l s s xs).filter P) := by
  have hnew : pySetSlice l s s xs
      = l.take (pySliceIdx l.length s) ++ xs ++ l.drop (pySliceIdx l.length s) := by
    show l.take (pySliceIdx l.length s) ++ xs
        ++ l.drop (max (pySliceIdx l.length s) (pySliceIdx l.length s)) = _
    rw [max_self]
  rw [hnew]
  conv_lhs => rw [← List.take_append_drop (pySliceIdx l.length s) l]
  rw [List.filter_append, List.filter_append, List.filter_append, List.append_assoc]
  exact List.Sublist.append_left (List.sublist_append_right _ _) _

theorem filter_splice_sublist (l xs : List String) (s1 e1 : Nat) (hse : s1 ≤ e1)
    (hmid : List.filter _line_has_jinja_markers ((l.take e1).drop s1) = []) :
    (l.filter _line_has_jinja_markers).Sublist
      ((l.take s1 ++ xs ++ l.drop e1).filter _line_has_jinja_markers) := by
  have h1 : (l.take e1).take s1 = l.take s1 := by
    rw [List.take_take, Nat.min_eq_left hse]
  have hdec : l.take s1 ++ (l.take e1).drop s1 ++ l.drop e1 = l := by
    rw [← h1, List.take_append_drop, List.take_append_drop]
  conv_lhs => rw [← hdec]
  rw [List.filter_append, List.filter_append, hmid, List.append_nil,
    List.filter_append, List.filter_append, List.append_assoc]
  exact List.Sublist.append_left (List.sublist_append_right _ _) _

theorem filter_setSlice_checked (l xs : List String) (s e : Int)
    (hs : 0 ≤ s) (he : 0 ≤ e)
    (hsafe : ∀ t ∈ intRange (max 0 s) (min (l.length : Int) e),
      _line_has_jinja_markers (pyGetD l t "") = false) :
    (l.filter _line_has_jinja_markers).Sublist
      ((pySetSlice l s e xs).filter _line_has_jinja_markers) := by
  have hsx : pySliceIdx l.length s = min s.toNat l.length := by
    unfold pySliceIdx; rw [if_neg (by omega)]
  have hex : pySliceIdx l.length e = min e.toNat l.length := by
    unfold pySliceIdx; rw [if_neg (by omega)]
  have hnew : pySetSlice l s e xs
      = l.take (pySliceIdx l.length s) ++ xs
        ++ l.drop (max (pySliceIdx l.length s) (pySliceIdx l.length e)) := rfl
  rw [hnew]
  apply filter_splice_sublist _ _ _ _ (Nat.le_max_left _ _)
  rw [List.filter_eq_nil_iff]
  intro x hx
  rcases List.mem_iff_getElem?.1 hx with ⟨k, hk⟩
  rw [List.getElem?_drop, List.getElem?_take] at hk
  set s1 := pySliceIdx l.length s with hs1
  set e1 := pySliceIdx l.length e with he1
  rw [hsx] at hs1
  rw [hex] at he1
  by_cases hlt : s1 + k < max s1 e1
  · rw [if_pos hlt] at hk
    have hmem : ((s1 + k : Nat) : Int) ∈ intRange (max 0 s) (min (l.length : Int) e) := by
      rw [mem_intRange]
      omega
    have hsafe' := hsafe _ hmem
    have hnn : ¬ ((s1 + k : Nat) : Int) < 0 := by omega
    have hget : pyGetD l ((s1 + k : Nat) : Int) "" = x := by
      simp only [pyGetD]
      rw [if_neg hnn, if_neg hnn, Int.toNat_natCast, List.get?_eq_getElem?, hk]
      rfl
    rw [hget] at hsafe'
    simp [hsafe']
  · rw [if_neg hlt] at hk
    cases hk

/-! ### The expected-to-template index map: totality, bounds, monotonicity -/

theorem MapInv_mono_i (i i2 j : Int) (h : i ≤ i2) (m : IndexMap)
    (hm : MapInv i j m) : MapInv i2 j m := by
  obtain ⟨h1, h2, h3⟩ := hm
  refine ⟨h1, ?_, h3⟩
  intro y v hv
  rcases h2 y v hv with ⟨a, b, c, d⟩
  exact ⟨a, b, c, by omega⟩

theorem equal_fold_inv (i1 j1 : Int) (hi1 : 0 ≤ i1) (hj1 : 0 ≤ j1) :
    ∀ (fuel : Nat) (t span : Int) (m : IndexMap),
      0 ≤ t → t ≤ span → fuel = (span - t).toNat →
      MapInv (i1 + t) (j1 + t) m →
      MapInv (i1 + span) (j1 + span)
        ((intRange t span).foldl (fun m k => imap_insert m (j1 + k) (i1 + k)) m) := by
  intro fuel
  induction fuel with
  | zero =>
    intro t span m h0 hts hf hinv
    have hst : span = t := by omega
    subst hst
    rw [intRange_eq_nil _ _ (le_refl _)]
    exact hinv
  | succ n ih =>
    intro t span m h0 hts hf hinv
    rcases eq_or_lt_of_le hts with rfl | hlt
    · rw [intRange_eq_nil _ _ (le_refl _)]; exact hinv
    rw [intRange_eq_cons _ _ hlt]
    show MapInv _ _ ((intRange (t + 1) span).foldl
      (fun m k => imap_insert m (j1 + k) (i1 + k)) (imap_insert m (j1 + t) (i1 + t)))
    apply ih (t + 1) span _ (by omega) (by omega) (by omega)
    obtain ⟨h1, h2, h3⟩ := hinv
    refine ⟨?_, ?_, ?_⟩
    · intro y hy0 hyj
      by_cases hyk : y = j1 + t
      · refine ⟨i1 + t, ?_⟩
        unfold imap_insert
        rw [if_pos hyk]
      · rcases h1 y hy0 (by omega) with ⟨v, hv⟩
        refine ⟨v, ?_⟩
        unfold imap_insert
        rw [if_neg hyk]
        exact hv
    · intro y v hv
      unfold imap_insert at hv
      by_cases hyk : y = j1 + t
      · rw [if_pos hyk] at hv
        have hv' : v = i1 + t := by
          injection hv with hv'
          omega
        refine ⟨by omega, by omega, by omega, by omega⟩
      · rw [if_neg hyk] at hv
        rcases h2 y v hv with ⟨a, b, c, d⟩
        exact ⟨a, by omega, c, by omega⟩
    · intro y z u w hu hw hyz
      unfold imap_insert at hu hw
      by_cases hyk : y = j1 + t <;> by_cases hzk : z = j1 + t
      · rw [if_pos hyk] at hu
        rw [if_pos hzk] at hw
        injection hu with hu
        injection hw with hw
        omega
      · rw [if_pos hyk] at hu
        rw [if_neg hzk] at hw
        rcases h2 z w hw with ⟨_, hb, _, _⟩
        omega
      · rw [if_neg hyk] at hu
        rw [if_pos hzk] at hw
        rcases h2 y u hu with ⟨_, _, _, hd⟩
        injection hw with hw
        omega
      · rw [if_neg hyk] at hu
        rw [if_neg hzk] at hw
        exact h3 y z u w hu hw hyz

theorem setdefault_fold_inv (i1 : Int) (hi0 : 0 ≤ i1) :
    ∀ (fuel : Nat) (t j2 : Int) (m : IndexMap),
      0 ≤ t → t ≤ j2 → fuel = (j2 - t).toNat →
      MapInv i1 t m →
      MapInv i1 j2 ((intRange t j2).foldl (fun m j => imap_setdefault m j i1) m) := by
  intro fuel
  induction fuel with
  | zero =>
    intro t j2 m h0 hts hf hinv
    have hst : j2 = t := by omega
    subst hst
    rw [intRange_eq_nil _ _ (le_refl _)]
    exact hinv
  | succ n ih =>
    intro t j2 m h0 hts hf hinv
    rcases eq_or_lt_of_le hts with rfl | hlt
    · rw [intRange_eq_nil _ _ (le_refl _)]; exact hinv
    rw [intRange_eq_cons _ _ hlt]
    show MapInv _ _ ((intRange (t + 1) j2).foldl
      (fun m j => imap_setdefault m j i1) (imap_setdefault m t i1))
    apply ih (t + 1) j2 _ (by omega) (by omega) (by omega)
    obtain ⟨h1, h2, h3⟩ := hinv
    have hmt : m t = none := by
      cases hcase : m t with
      | none => rfl
      | some v =>
        rcases h2 t v hcase with ⟨_, hb, _, _⟩
        omega
    refine ⟨?_, ?_, ?_⟩
    · intro y hy0 hyj
      by_cases hyk : y = t
      · refine ⟨i1, ?_⟩
        unfold imap_setdefault
        rw [if_pos hyk, hmt]
        rfl
      · rcases h1 y hy0 (by omega) with ⟨v, hv⟩
        refine ⟨v, ?_⟩
        unfold imap_setdefault
        rw [if_neg hyk]
        exact hv
    · intro y v hv
      unfold imap_setdefault at hv
      by_cases hyk : y = t
      · rw [if_pos hyk, hmt] at hv
        simp only [Option.getD_none] at hv
        have hv' : v = i1 := by
          injection hv with hv'
          omega
        exact ⟨by omega, by omega, by omega, by omega⟩
      · rw [if_neg hyk] at hv
        rcases h2 y v hv with ⟨a, b, c, d⟩
        exact ⟨a, by omega, c, d⟩
    · intro y z u w hu hw hyz
      unfold imap_setdefault at hu hw
      by_cases hyk : y = t <;> by_cases hzk : z = t
      · rw [if_pos hyk, hmt] at hu
        rw [if_pos hzk, hmt] at hw
        simp only [Option.getD_none] at hu hw
        injection hu with hu
        injection hw with hw
        omega
      · rw [if_pos hyk, hmt] at hu
        rw [if_neg hzk] at hw
        rcases h2 z w hw with ⟨_, hb, _, _⟩
        simp only [Option.getD_none] at hu
        omega
      · rw [if_neg hyk] at hu
        rw [if_pos hzk, hmt] at hw
        simp only [Option.getD_none] at hw
        rcases h2 y u hu with ⟨_, _, _, hd⟩
        injection hw with hw
        omega
      · rw [if_neg hyk] at hu
        rw [if_neg hzk] at hw
        exact h3 y z u w hu hw hyz

theorem build_map_step_inv (tag : String) (i1 i2 j1 j2 : Int) (m : IndexMap)
    (h1 : 0 ≤ i1) (h2 : 0 ≤ j1) (h3 : i1 ≤ i2) (h4 : j1 ≤ j2)
    (heq : tag = "equal" → i2 - i1 = j2 - j1)
    (hinv : MapInv i1 j1 m) :
    MapInv i2 j2 (build_map_step m (tag, i1, i2, j1, j2)) := by
  unfold build_map_step
  dsimp only
  by_cases htag : tag = "equal"
  · rw [if_pos htag]
    have hspan : min (i2 - i1) (j2 - j1) = j2 - j1 := by
      rw [heq htag]
      exact min_self _
    have hfold := equal_fold_inv i1 j1 h1 h2 ((j2 - j1) - 0).toNat 0 (j2 - j1) m
      (le_refl 0) (by omega) (by omega) (by simpa using hinv)
    have hA : i1 + (j2 - j1) = i2 := by
      have := heq htag
      omega
    have hB : j1 + (j2 - j1) = j2 := by omega
    rw [hA, hB] at hfold
    rw [hspan]
    exact hfold
  · rw [if_neg htag]
    exact MapInv_mono_i i1 i2 j2 h3 _
      (setdefault_fold_inv i1 h1 ((j2 - j1).toNat) j1 j2 m h2 h4 (by omega) hinv)

theorem build_map_fold_inv (la lb : Int) :
    ∀ (ops : List (String × Int × Int × Int × Int)) (i j : Int) (m : IndexMap),
      0 ≤ i → 0 ≤ j → OpsWalk la lb i j ops → MapInv i j m →
      MapInv la lb (ops.foldl build_map_step m) := by
  intro ops
  induction ops with
  | nil =>
    intro i j m hi hj hw hinv
    obtain ⟨rfl, rfl⟩ := hw
    exact hinv
  | cons op rest ih =>
    intro i j m hi hj hw hinv
    obtain ⟨tag, i1, i2, j1, j2⟩ := op
    obtain ⟨hi1, hj1, hii, hjj, hila, hjlb, heqlen, htags, hrest⟩ := hw
    subst hi1
    subst hj1
    show MapInv la lb (rest.foldl build_map_step (build_map_step m (tag, i1, i2, j1, j2)))
    exact ih i2 j2 _ (by omega) (by omega) hrest
      (build_map_step_inv tag i1 i2 j1 j2 m hi hj hii hjj heqlen hinv)

theorem build_map_props (template_lines expected_lines : List String)
    (hne : expected_lines ≠ []) :
    (∀ x, 0 ≤ x → x ≤ (expected_lines.length : Int) →
      ∃ v, _build_expected_to_template_index_map template_lines expected_lines x = some v ∧
        0 ≤ v) ∧
    (∀ x y u w,
      _build_expected_to_template_index_map template_lines expected_lines x = some u →
      _build_expected_to_template_index_map template_lines expected_lines y = some w →
      x ≤ y → u ≤ w) := by
  have hwalk := get_opcodes_walk template_lines expected_lines
  have hinv0 : MapInv 0 0 (fun _ => none) := by
    refine ⟨?_, ?_, ?_⟩
    · intro y hy1 hy2; omega
    · intro y v h; cases h
    · intro y z u w h; cases h
  have hm := build_map_fold_inv (template_lines.length : Int) (expected_lines.length : Int)
    (get_opcodes template_lines expected_lines) 0 0 (fun _ => none)
    (le_refl 0) (le_refl 0) hwalk hinv0
  unfold _build_expected_to_template_index_map
  rw [if_pos hne]
  obtain ⟨hex, hkey, hmono⟩ := hm
  have hnone : (get_opcodes template_lines expected_lines).foldl build_map_step
      (fun _ => none) (expected_lines.length : Int) = none := by
    cases hcase : (get_opcodes template_lines expected_lines).foldl build_map_step
        (fun _ => none) (expected_lines.length : Int) with
    | none => rfl
    | some v =>
      rcases hkey _ _ hcase with ⟨_, hb, _, _⟩
      omega
  constructor
  · intro x hx0 hxle
    by_cases hxe : x = (expected_lines.length : Int)
    · refine ⟨(template_lines.length : Int), ?_, Int.ofNat_nonneg _⟩
      unfold imap_setdefault
      rw [if_pos hxe, hnone]
      rfl
    · unfold imap_setdefault
      rw [if_neg hxe]
      rcases hex x hx0 (by omega) with ⟨v, hv⟩
      rcases hkey x v hv with ⟨_, _, hv0, _⟩
      exact ⟨v, hv, hv0⟩
  · intro x y u w hu hw hxy
    unfold imap_setdefault at hu hw
    by_cases hxe : x = (expected_lines.length : Int) <;>
      by_cases hye : y = (expected_lines.length : Int)
    · rw [if_pos hxe, hnone] at hu
      rw [if_pos hye, hnone] at hw
      simp only [Option.getD_none] at hu hw
      injection hu with hu
      injection hw with hw
      omega
    · rw [if_pos hxe, hnone] at hu
      rw [if_neg hye] at hw
      rcases hkey y w hw with ⟨_, hb, _, _⟩
      omega
    · rw [if_neg hxe] at hu
      rw [if_pos hye, hnone] at hw
      simp only [Option.getD_none] at hw
      rcases hkey x u hu with ⟨_, _, _, hd⟩
      injection hw with hw
      omega
    · rw [if_neg hxe] at hu
      rw [if_neg hye] at hw
      exact hmono x y u w hu hw hxy

/-! ### One opcode application preserves the Jinja-marked template lines -/

theorem apply_opcode_safe (m : IndexMap) (tpl actual : List String) (le : Int)
    (hmt : ∀ x, 0 ≤ x → x ≤ le → ∃ v, m x = some v ∧ 0 ≤ v)
    (hmono : ∀ x y u w, m x = some u → m y = some w → x ≤ y → u ≤ w)
    (hactual : ∀ l ∈ actual, TermFree l.toList)
    (tag : String) (i1 i2 j1 j2 : Int) (st : ResolveState)
    (hi0 : 0 ≤ i1) (hii : i1 ≤ i2) (hile : i2 ≤ le)
    (htags : tag = "equal" ∨ tag = "replace" ∨ tag = "delete" ∨ tag = "insert")
    (hdinv : ∀ v, m i1 = some v → 0 ≤ v + st.delta_offset)
    (hsub : (tpl.filter _line_has_jinja_markers).Sublist
      (st.new_template_lines.filter _line_has_jinja_markers))
    (htf : ∀ l ∈ st.new_template_lines, TermFree l.toList) :
    (tpl.filter _line_has_jinja_markers).Sublist
      ((apply_opcode m actual st (tag, i1, i2, j1, j2)).new_template_lines.filter
        _line_has_jinja_markers) ∧
    (∀ l ∈ (apply_opcode m actual st (tag, i1, i2, j1, j2)).new_template_lines,
      TermFree l.toList) ∧
    (∀ v, m i2 = some v →
      0 ≤ v + (apply_opcode m actual st (tag, i1, i2, j1, j2)).delta_offset) := by
  obtain ⟨v1, hv1, hv10⟩ := hmt i1 hi0 (by omega)
  obtain ⟨v2, hv2, hv20⟩ := hmt i2 (by omega) hile
  have hv12 : v1 ≤ v2 := hmono i1 i2 v1 v2 hv1 hv2 hii
  have hd1 : 0 ≤ v1 + st.delta_offset := hdinv v1 hv1
  have hinv2 : ∀ v, m i2 = some v → 0 ≤ v + st.delta_offset := by
    intro v hv
    rw [hv] at hv2
    injection hv2 with h
    omega
  have hts : tpl_index_from_expected m st i1 = v1 + st.delta_offset := by
    unfold tpl_index_from_expected
    rw [hv1]
    rfl
  have hte : tpl_index_from_expected m st i2 = v2 + st.delta_offset := by
    unfold tpl_index_from_expected
    rw [hv2]
    rfl
  by_cases htage : tag = "equal"
  · have happly : apply_opcode m actual st (tag, i1, i2, j1, j2) = st := by
      unfold apply_opcode
      dsimp only
      rw [if_pos htage]
    rw [happly]
    exact ⟨hsub, htf, hinv2⟩
  by_cases hsafe : ((tag = "replace" ∨ tag = "delete") ∧
      safe_region_has_jinja st.new_template_lines (v1 + st.delta_offset)
        (v2 + st.delta_offset) = true)
  · have happly : apply_opcode m actual st (tag, i1, i2, j1, j2) = st := by
      unfold apply_opcode
      dsimp only
      rw [if_neg htage, hts, hte, if_pos hsafe]
    rw [happly]
    exact ⟨hsub, htf, hinv2⟩
  have hmemsplice : ∀ (s e : Int) (xs : List String), (∀ l ∈ xs, TermFree l.toList) →
      ∀ l ∈ pySetSlice st.new_template_lines s e xs, TermFree l.toList := by
    intro s e xs hxs l hl
    have hl' : l ∈ st.new_template_lines.take (pySliceIdx st.new_template_lines.length s)
        ++ xs ++ st.new_template_lines.drop
          (max (pySliceIdx st.new_template_lines.length s)
            (pySliceIdx st.new_template_lines.length e)) := hl
    rcases List.mem_append.1 hl' with hl2 | hl2
    · rcases List.mem_append.1 hl2 with hl3 | hl3
      · exact htf l (List.mem_of_mem_take hl3)
      · exact hxs l hl3
    · exact htf l (List.mem_of_mem_drop hl2)
  have hmemslice : ∀ l ∈ pyGetSlice actual j1 j2, TermFree l.toList :=
    fun l hl => hactual l (pyGetSlice_subset actual j1 j2 l hl)
  have hregion : (tag = "replace" ∨ tag = "delete") →
      ∀ t ∈ intRange (max 0 (v1 + st.delta_offset))
        (min (st.new_template_lines.length : Int) (v2 + st.delta_offset)),
      _line_has_jinja_markers (pyGetD st.new_template_lines t "") = false := by
    intro htrd
    have hnsafe : safe_region_has_jinja st.new_template_lines (v1 + st.delta_offset)
        (v2 + st.delta_offset) = false := by
      rcases hcase : safe_region_has_jinja st.new_template_lines (v1 + st.delta_offset)
          (v2 + st.delta_offset) with _ | _
      · rfl
      · exact absurd ⟨htrd, hcase⟩ hsafe
    unfold safe_region_has_jinja at hnsafe
    rw [List.any_eq_false] at hnsafe
    intro t ht
    simpa using hnsafe t ht
  rcases htags with h | htagr | htagd | htagi
  · exact absurd h htage
  · -- replace: the checked region is removed and replaced
    subst htagr
    have happly : apply_opcode m actual st ("replace", i1, i2, j1, j2) =
        { new_template_lines := pySetSlice st.new_template_lines
            (v1 + st.delta_offset) (v2 + st.delta_offset) (pyGetSlice actual j1 j2)
          delta_offset := st.delta_offset + (pyGetSlice actual j1 j2).length
            - max 0 (v2 + st.delta_offset - (v1 + st.delta_offset))
          changes_made := true } := by
      unfold apply_opcode
      dsimp only
      rw [if_neg htage, hts, hte, if_neg hsafe,
        if_neg (by decide : ¬ ("replace" : String) = "insert"),
        if_neg (by decide : ¬ ("replace" : String) = "delete"),
        if_pos (rfl : ("replace" : String) = "replace")]
    rw [happly]
    refine ⟨?_, ?_, ?_⟩
    · exact hsub.trans (filter_setSlice_checked _ _ _ _ hd1 (by omega)
        (hregion (Or.inl rfl)))
    · exact hmemsplice _ _ _ hmemslice
    · intro v hv
      rw [hv] at hv2
      injection hv2 with h
      have hlen : 0 ≤ ((pyGetSlice actual j1 j2).length : Int) := Int.ofNat_nonneg _
      dsimp only
      omega
  · -- delete: the checked region is removed
    subst htagd
    by_cases hdel : (0 : Int) < max 0 (v2 + st.delta_offset - (v1 + st.delta_offset))
    · have happly : apply_opcode m actual st ("delete", i1, i2, j1, j2) =
          { new_template_lines := pySetSlice st.new_template_lines
              (v1 + st.delta_offset) (v2 + st.delta_offset) []
            delta_offset := st.delta_offset
              - max 0 (v2 + st.delta_offset - (v1 + st.delta_offset))
            changes_made := true } := by
        unfold apply_opcode
        dsimp only
        rw [if_neg htage, hts, hte, if_neg hsafe,
          if_neg (by decide : ¬ ("delete" : String) = "insert"),
          if_pos (rfl : ("delete" : String) = "delete"), if_pos hdel]
      rw [happly]
      refine ⟨?_, ?_, ?_⟩
      · exact hsub.trans (filter_setSlice_checked _ _ _ _ hd1 (by omega)
          (hregion (Or.inr rfl)))
      · exact hmemsplice _ _ _ (by intro l hl; simp at hl)
      · intro v hv
        rw [hv] at hv2
        injection hv2 with h
        dsimp only
        omega
    · have happly : apply_opcode m actual st ("delete", i1, i2, j1, j2) = st := by
        unfold apply_opcode
        dsimp only
        rw [if_neg htage, hts, hte, if_neg hsafe,
          if_neg (by decide : ¬ ("delete" : String) = "insert"),
          if_pos (rfl : ("delete" : String) = "delete"), if_neg hdel]
      rw [happly]
      exact ⟨hsub, htf, hinv2⟩
  · -- insert: nothing is removed
    subst htagi
    by_cases hctx : ((intRange (max 0 (v1 + st.delta_offset - 1))
        (min (st.new_template_lines.length : Int) (v1 + st.delta_offset + 1))).any
          (fun t => _line_has_jinja_markers (pyGetD st.new_template_lines t "")) = true)
    · have happly : apply_opcode m actual st ("insert", i1, i2, j1, j2) = st := by
        unfold apply_opcode
        dsimp only
        rw [if_neg htage, hts, hte, if_neg hsafe,
          if_pos (rfl : ("insert" : String) = "insert"), if_pos hctx]
      rw [happly]
      exact ⟨hsub, htf, hinv2⟩
    · have happly : apply_opcode m actual st ("insert", i1, i2, j1, j2) =
          { new_template_lines := pySetSlice st.new_template_lines
              (v1 + st.delta_offset) (v1 + st.delta_offset) (pyGetSlice actual j1 j2)
            delta_offset := st.delta_offset + (pyGetSlice actual j1 j2).length
            changes_made := true } := by
        unfold apply_opcode
        dsimp only
        rw [if_neg htage, hts, hte, if_neg hsafe,
          if_pos (rfl : ("insert" : String) = "insert"), if_neg hctx]
      rw [happly]
      refine ⟨?_, ?_, ?_⟩
      · exact hsub.trans (filter_setSlice_insert _ _ _ _)
      · exact hmemsplice _ _ _ hmemslice
      · intro v hv
        rw [hv] at hv2
        injection hv2 with h
        have hlen : 0 ≤ ((pyGetSlice actual j1 j2).length : Int) := Int.ofNat_nonneg _
        dsimp only
        omega

theorem apply_fold_safe (m : IndexMap) (tpl actual : List String) (le lb : Int)
    (hmt : ∀ x, 0 ≤ x → x ≤ le → ∃ v, m x = some v ∧ 0 ≤ v)
    (hmono : ∀ x y u w, m x = some u → m y = some w → x ≤ y → u ≤ w)
    (hactual : ∀ l ∈ actual, TermFree l.toList) :
    ∀ (ops : List (String × Int × Int × Int × Int)) (i j : Int) (st : ResolveState),
      OpsWalk le lb i j ops → 0 ≤ i →
      (∀ v, m i = some v → 0 ≤ v + st.delta_offset) →
      (tpl.filter _line_has_jinja_markers).Sublist
        (st.new_template_lines.filter _line_has_jinja_markers) →
      (∀ l ∈ st.new_template_lines, TermFree l.toList) →
      (tpl.filter _line_has_jinja_markers).Sublist
        ((ops.foldl (apply_opcode m actual) st).new_template_lines.filter
          _line_has_jinja_markers) ∧
      (∀ l ∈ (ops.foldl (apply_opcode m actual) st).new_template_lines,
        TermFree l.toList) := by
  intro ops
  induction ops with
  | nil =>
    intro i j st hw hi hd hsub htf
    exact ⟨hsub, htf⟩
  | cons op rest ih =>
    intro i j st hw hi hd hsub htf
    obtain ⟨tag, i1, i2, j1, j2⟩ := op
    obtain ⟨hi1, hj1, hii, hjj, hila, hjlb, heqlen, htags, hrest⟩ := hw
    subst hi1
    subst hj1
    obtain ⟨hs1, hs2, hs3⟩ := apply_opcode_safe m tpl actual le hmt hmono hactual
      tag i1 i2 j1 j2 st hi hii hila htags hd hsub htf
    show (tpl.filter _line_has_jinja_markers).Sublist
        ((rest.foldl (apply_opcode m actual)
          (apply_opcode m actual st (tag, i1, i2, j1, j2))).new_template_lines.filter
            _line_has_jinja_markers) ∧ _
    exact ih i2 j2 _ hrest (by omega) hs3 hs1 hs2

theorem gmb_loop_nil (a b : List String) (bj : String → List Int) :
    ∀ (fuel : Nat) (blocks : List (Int × Int × Int)),
      gmb_loop a b bj fuel [] blocks = blocks := by
  intro fuel blocks
  cases fuel with
  | zero => rfl
  | succ n => rfl

theorem flm_nil_left (a : List String) :
    find_longest_match [] a (b2j a) 0 0 0 (a.length : Int) = (0, 0, 0) := rfl

theorem get_opcodes_nil_left (a : List String) :
    get_opcodes [] a = if (0 : Int) < (a.length : Int)
      then [("insert", 0, 0, 0, (a.length : Int))] else [] := by
  have hgmb : gmb_loop [] a (b2j a) (List.length ([] : List String) + a.length + 1)
      [((0 : Int), (List.length ([] : List String) : Int), (0 : Int), (a.length : Int))]
      [] = [] := by
    show gmb_loop [] a (b2j a) ((0 + a.length) + 1) [((0 : Int), 0, 0, (a.length : Int))] [] = []
    rw [gmb_loop]
    simp only [List.getLast?_singleton]
    rw [flm_nil_left]
    rw [if_neg (by decide : ¬ (0 : Int) ≠ 0)]
    exact gmb_loop_nil _ _ _ _ _
  have hgm : get_matching_blocks [] a = [((0 : Int), (a.length : Int), 0)] := by
    unfold get_matching_blocks
    rw [hgmb]
    rfl
  unfold get_opcodes
  rw [hgm]
  show (opcodes_step ((0, 0), []) ((0 : Int), (a.length : Int), 0)).2 = _
  unfold opcodes_step
  dsimp only
  rw [if_neg (by omega : ¬ ((0 : Int) < 0 ∧ (0 : Int) < (a.length : Int))),
    if_neg (by omega : ¬ (0 : Int) < 0)]
  by_cases hlb : (0 : Int) < (a.length : Int)
  · rw [if_pos hlb]
    rw [if_pos (by decide : ("insert" : String) ≠ "")]
    rw [if_neg (by decide : ¬ (0 : Int) ≠ 0)]
    rw [if_pos hlb]
    rfl
  · rw [if_neg hlb]
    rw [if_neg (by decide : ¬ ("" : String) ≠ "")]
    rw [if_neg (by decide : ¬ (0 : Int) ≠ 0)]
    rw [if_neg hlb]

theorem apply_opcode_insert_safe (m : IndexMap) (tpl actual : List String)
    (i1 i2 j1 j2 : Int) (st : ResolveState)
    (hsub : (tpl.filter _line_has_jinja_markers).Sublist
      (st.new_template_lines.filter _line_has_jinja_markers))
    (htf : ∀ l ∈ st.new_template_lines, TermFree l.toList)
    (hactual : ∀ l ∈ actual, TermFree l.toList) :
    (tpl.filter _line_has_jinja_markers).Sublist
      ((apply_opcode m actual st ("insert", i1, i2, j1, j2)).new_template_lines.filter
        _line_has_jinja_markers) ∧
    (∀ l ∈ (apply_opcode m actual st ("insert", i1, i2, j1, j2)).new_template_lines,
      TermFree l.toList) := by
  have hnoteq : ¬ ("insert" : String) = "equal" := by decide
  have hnsafe : ¬ ((("insert" : String) = "replace" ∨ ("insert" : String) = "delete") ∧
      safe_region_has_jinja st.new_template_lines
        (tpl_index_from_expected m st i1) (tpl_index_from_expected m st i2) = true) := by
    intro hcon
    rcases hcon.1 with h | h
    · exact absurd h (by decide)
    · exact absurd h (by decide)
  by_cases hctx : ((intRange (max 0 (tpl_index_from_expected m st i1 - 1))
      (min (st.new_template_lines.length : Int)
        (tpl_index_from_expected m st i1 + 1))).any
      (fun t2 => _line_has_jinja_markers (pyGetD st.new_template_lines t2 "")) = true)
  · have happly : apply_opcode m actual st ("insert", i1, i2, j1, j2) = st := by
      unfold apply_opcode
      dsimp only
      rw [if_neg hnoteq, if_neg hnsafe,
        if_pos (rfl : ("insert" : String) = "insert"), if_pos hctx]
    rw [happly]
    exact ⟨hsub, htf⟩
  · have happly : apply_opcode m actual st ("insert", i1, i2, j1, j2) =
        { new_template_lines := pySetSlice st.new_template_lines
            (tpl_index_from_expected m st i1) (tpl_index_from_expected m st i1)
            (pyGetSlice actual j1 j2)
          delta_offset := st.delta_offset + (pyGetSlice actual j1 j2).length
          changes_made := true } := by
      unfold apply_opcode
      dsimp only
      rw [if_neg hnoteq, if_neg hnsafe,
        if_pos (rfl : ("insert" : String) = "insert"), if_neg hctx]
    rw [happly]
    constructor
    · exact hsub.trans (filter_setSlice_insert _ _ _ _)
    · intro l hl
      have hl' : l ∈ st.new_template_lines.take
          (pySliceIdx st.new_template_lines.length (tpl_index_from_expected m st i1))
          ++ pyGetSlice actual j1 j2 ++ st.new_template_lines.drop
            (max (pySliceIdx st.new_template_lines.length (tpl_index_from_expected m st i1))
              (pySliceIdx st.new_template_lines.length
                (tpl_index_from_expected m st i1))) := hl
      rcases List.mem_append.1 hl' with hl2 | hl2
      · rcases List.mem_append.1 hl2 with hl3 | hl3
        · exact htf l (List.mem_of_mem_take hl3)
        · exact hactual l (pyGetSlice_subset actual j1 j2 l hl3)
      · exact htf l (List.mem_of_mem_drop hl2)

theorem propose_resolution_safe (t e a : List String)
    (ht : ∀ l ∈ t, TermFree l.toList) (ha : ∀ l ∈ a, TermFree l.toList) :
    (t.filter _line_has_jinja_markers).Sublist
      ((propose_resolution t e a).1.filter _line_has_jinja_markers) ∧
    (∀ l ∈ (propose_resolution t e a).1, TermFree l.toList) := by
  have hfe : (propose_resolution t e a).1
      = ((get_opcodes e a).foldl
          (apply_opcode (_build_expected_to_template_index_map t e) a)
          { new_template_lines := t, delta_offset := 0,
            changes_made := false }).new_template_lines := rfl
  rw [hfe]
  by_cases hne : e = []
  · subst hne
    generalize _build_expected_to_template_index_map t [] = m0
    rw [get_opcodes_nil_left]
    by_cases hlb : (0 : Int) < (a.length : Int)
    · rw [if_pos hlb]
      exact apply_opcode_insert_safe m0 t a 0 0 0 _ _
        (List.Sublist.refl _) ht ha
    · rw [if_neg hlb]
      exact ⟨List.Sublist.refl _, ht⟩
  · obtain ⟨hmt, hmono⟩ := build_map_props t e hne
    have hwalk := get_opcodes_walk e a
    have hd0 : ∀ v, _build_expected_to_template_index_map t e 0 = some v →
        0 ≤ v + (ResolveState.mk t 0 false).delta_offset := by
      intro v hv
      obtain ⟨v', hv', hv0'⟩ := hmt 0 (le_refl 0) (Int.ofNat_nonneg _)
      rw [hv] at hv'
      injection hv' with h
      dsimp only
      omega
    exact apply_fold_safe _ t a _ _ hmt hmono ha (get_opcodes e a) 0 0 _
      hwalk (le_refl 0) hd0 (List.Sublist.refl _) ht

theorem splitlines_termfree (s : String) :
    ∀ l ∈ pySplitlines s, TermFree l.toList := by
  intro l hl
  unfold pySplitlines at hl
  rcases List.mem_map.1 hl with ⟨cl, hcl, rfl⟩
  exact splitCore_termfree _ cl hcl

/-- **C1.** Safety under live syntax: whenever
`attempt_chunk_based_jinja_resolution` returns a proposed body, every line of
the original template that contains a templating delimiter (`{{`, `{%` or
`{#`) appears verbatim, in order, among the lines of that proposed body:
`replace`/`delete` edits whose (clamped, non-negative) template-side range
touches such a line are skipped, `insert` edits never remove lines, and the
surrounding-context check guards insertions — so the Jinja-marked lines of
the template survive as a sublist of the returned body's lines. -/
theorem c1_live_jinja_lines_preserved (env : RenderEnv) (tc expected actual body : String)
    (fs : Option String)
    (h : attempt_chunk_based_jinja_resolution env (some tc) expected actual
      = (Except.ok (some body), fs)) :
    ((pySplitlines tc).filter _line_has_jinja_markers).Sublist (pySplitlines body) := by
  unfold attempt_chunk_based_jinja_resolution at h
  cases hrf : env.read_fails with
  | some e =>
    rw [hrf] at h
    simp at h
  | none =>
    rw [hrf] at h
    dsimp only at h
    by_cases hres : (propose_resolution (pySplitlines tc) (pySplitlines expected)
        (pySplitlines actual)).2 = false
    · rw [if_pos hres] at h
      simp at h
    · rw [if_neg hres] at h
      rcases hval : validate_auto_resolved_template env (some tc)
          (if pyEndsWith (joinLines (propose_resolution (pySplitlines tc)
                (pySplitlines expected) (pySplitlines actual)).1) "\n"
           then joinLines (propose_resolution (pySplitlines tc)
                (pySplitlines expected) (pySplitlines actual)).1
           else joinLines (propose_resolution (pySplitlines tc)
                (pySplitlines expected) (pySplitlines actual)).1 ++ "\n")
          actual with ⟨out, fs2⟩
      rw [hval] at h
      obtain ⟨hsub, htf⟩ := propose_resolution_safe (pySplitlines tc)
        (pySplitlines expected) (pySplitlines actual)
        (splitlines_termfree tc) (splitlines_termfree actual)
      cases out with
      | error e => simp at h
      | ok b =>
        cases b with
        | false => simp at h
        | true =>
          simp only [Prod.mk.injEq] at h
          have hbody := h.1
          have hbody' : body = (if pyEndsWith (joinLines (propose_resolution
              (pySplitlines tc) (pySplitlines expected) (pySplitlines actual)).1) "\n"
            then joinLines (propose_resolution (pySplitlines tc)
                (pySplitlines expected) (pySplitlines actual)).1
            else joinLines (propose_resolution (pySplitlines tc)
                (pySplitlines expected) (pySplitlines actual)).1 ++ "\n") := by
            exact (Option.some.inj (Except.ok.inj hbody)).symm
          rw [hbody']
          exact hsub.trans (filter_sub_splitlines_body _ htf)

theorem c1_live_jinja_lines_preserved_witness :
    ((pySplitlines "a\n\x7b\x7b x \x7d\x7d\nb\n").filter
      _line_has_jinja_markers).Sublist (pySplitlines "a2\n\x7b\x7b x \x7d\x7d\nb\n") :=
  c1_live_jinja_lines_preserved envC1 "a\n\x7b\x7b x \x7d\x7d\nb\n" "a\nX\nb\n"
    "a2\nX\nb\n" "a2\n\x7b\x7b x \x7d\x7d\nb\n" (some "a\n\x7b\x7b x \x7d\x7d\nb\n") rfl

/-! ### `find_longest_match` on identical sequences returns the full diagonal -/

theorem OldInv_update (c : Int) (newd : Int → Int) (j v : Int)
    (h : OldInv c newd) (hv0 : 0 ≤ v) (hvc : v ≤ c) (hvj : v ≤ j + 1) :
    OldInv c (fun x => if x = j then v else newd x) := by
  intro x
  simp only []
  by_cases hx : x = j
  · rw [if_pos hx]
    exact ⟨hv0, hvc, Or.inr (by omega)⟩
  · rw [if_neg hx]
    exact h x

theorem flm_inner_id_post (i n : Int) (old : Int → Int) (hi : 0 ≤ i)
    (hold : OldInv i old) :
    ∀ (js : List Int) (newd : Int → Int) (best : Int × Int × Int),
      (∀ j ∈ js, i < j) → best.2.2 = i + 1 → OldInv (i + 1) newd →
      ∃ nd, flm_inner i 0 n old js newd best = (nd, best) ∧
        OldInv (i + 1) nd ∧ nd i = newd i := by
  intro js
  induction js with
  | nil =>
    intro newd best hjs hbest hnew
    exact ⟨newd, rfl, hnew, rfl⟩
  | cons j js ih =>
    intro newd best hjs hbest hnew
    have hj : i < j := hjs j (List.mem_cons_self _ _)
    simp only [flm_inner]
    rw [if_neg (by omega : ¬ j < (0 : Int))]
    by_cases hbj : n ≤ j
    · rw [if_pos hbj]
      exact ⟨newd, rfl, hnew, rfl⟩
    · rw [if_neg hbj]
      obtain ⟨ha, hb, hc⟩ := hold (j - 1)
      rw [if_neg (show ¬ best.2.2 < old (j - 1) + 1 by omega)]
      have hnew' : OldInv (i + 1) (fun x => if x = j then old (j - 1) + 1 else newd x) := by
        apply OldInv_update _ _ _ _ hnew (by omega) (by omega)
        rcases hc with hc | hc
        · omega
        · omega
      obtain ⟨nd, heq2, hninv, hndi⟩ :=
        ih _ best (fun j2 hj2 => hjs j2 (List.mem_cons_of_mem _ hj2)) hbest hnew'
      refine ⟨nd, heq2, hninv, ?_⟩
      rw [hndi]
      show (if i = j then old (j - 1) + 1 else newd i) = newd i
      rw [if_neg (by omega : ¬ i = j)]

theorem flm_inner_id_pre (i n : Int) (old : Int → Int) (hi0 : 0 ≤ i) (hin : i < n)
    (hold : OldInv i old) (hdiag : old (i - 1) = i) :
    ∀ (js1 js2 : List Int) (newd : Int → Int),
      (∀ j ∈ js1, 0 ≤ j ∧ j < i) → (∀ j ∈ js2, i < j) → OldInv (i + 1) newd →
      ∃ nd, flm_inner i 0 n old (js1 ++ i :: js2) newd (0, 0, i) = (nd, (0, 0, i + 1)) ∧
        OldInv (i + 1) nd ∧ nd i = i + 1 := by
  intro js1
  induction js1 with
  | nil =>
    intro js2 newd hjs1 hjs2 hnew
    simp only [List.nil_append]
    simp only [flm_inner]
    rw [if_neg (by omega : ¬ i < (0 : Int)), if_neg (by omega : ¬ n ≤ i), hdiag]
    rw [if_pos (show ((0 : Int), (0 : Int), i).2.2 < i + 1 by
      show i < i + 1
      omega)]
    have hzero : (i - (i + 1) + 1, i - (i + 1) + 1, i + 1) = ((0 : Int), (0 : Int), i + 1) := by
      have h01 : i - (i + 1) + 1 = 0 := by omega
      rw [h01]
    rw [hzero]
    have hnew' : OldInv (i + 1) (fun x => if x = i then i + 1 else newd x) :=
      OldInv_update _ _ _ _ hnew (by omega) (by omega) (by omega)
    obtain ⟨nd, heq2, hninv, hndi⟩ := flm_inner_id_post i n old hi0 hold js2 _
      ((0 : Int), (0 : Int), i + 1) hjs2 rfl hnew'
    refine ⟨nd, heq2, hninv, ?_⟩
    rw [hndi]
    show (if i = i then i + 1 else newd i) = i + 1
    rw [if_pos rfl]
  | cons j js1 ih =>
    intro js2 newd hjs1 hjs2 hnew
    have hj := hjs1 j (List.mem_cons_self _ _)
    simp only [List.cons_append]
    simp only [flm_inner]
    rw [if_neg (by omega : ¬ j < (0 : Int)), if_neg (by omega : ¬ n ≤ j)]
    obtain ⟨ha, hb, hc⟩ := hold (j - 1)
    have hkle : old (j - 1) + 1 ≤ i := by
      rcases hc with hc | hc
      · omega
      · omega
    rw [if_neg (show ¬ ((0 : Int), (0 : Int), i).2.2 < old (j - 1) + 1 by
      show ¬ i < old (j - 1) + 1
      omega)]
    have hnew' : OldInv (i + 1) (fun x => if x = j then old (j - 1) + 1 else newd x) :=
      OldInv_update _ _ _ _ hnew (by omega) (by omega) (by omega)
    exact ih js2 _ (fun y hy => hjs1 y (List.mem_cons_of_mem _ hy)) hjs2 hnew'

theorem b2j_self_decomp (l : List String) (i : Int) (h0 : 0 ≤ i)
    (hlt : i < (l.length : Int)) :
    ∃ js1 js2, b2j l (pyGetD l i "") = js1 ++ i :: js2 ∧
      (∀ j ∈ js1, 0 ≤ j ∧ j < i) ∧ (∀ j ∈ js2, i < j) := by
  obtain ⟨m, rfl⟩ : ∃ m : Nat, (m : Int) = i := ⟨i.toNat, by omega⟩
  have hm : m < l.length := by omega
  have hget : pyGetD l ((m : Nat) : Int) "" = l.get ⟨m, hm⟩ := by
    simp only [pyGetD]
    rw [if_neg (by omega : ¬ ((m : Nat) : Int) < 0),
      if_neg (by omega : ¬ ((m : Nat) : Int) < 0), Int.toNat_natCast,
      List.get?_eq_get hm]
    rfl
  have hrange : List.range l.length
      = List.range m ++ m :: List.range' (m + 1) (l.length - m - 1) := by
    have h2 : List.range' 0 m 1 ++ List.range' m (l.length - m) 1
        = List.range' 0 l.length 1 := by
      have h2a := List.range'_append 0 m (l.length - m) 1
      rw [show 0 + 1 * m = m from by omega,
        show (l.length - m) + m = l.length from by omega] at h2a
      exact h2a
    have h3 : List.range' m (l.length - m) 1
        = m :: List.range' (m + 1) (l.length - m - 1) 1 := by
      have h3a := List.range'_succ m (l.length - m - 1) 1
      rw [show (l.length - m - 1) + 1 = l.length - m from by omega] at h3a
      exact h3a
    rw [List.range_eq_range', ← h2, h3, ← List.range_eq_range']
  unfold b2j
  rw [hget, hrange, List.filter_append, List.filter_cons]
  rw [if_pos (decide_eq_true (by rw [List.get?_eq_get hm]))]
  rw [List.map_append, List.map_cons]
  refine ⟨_, _, rfl, ?_, ?_⟩
  · intro j hj
    rcases List.mem_map.1 hj with ⟨j2, hj2, rfl⟩
    have := List.mem_range.1 (List.mem_filter.1 hj2).1
    omega
  · intro j hj
    rcases List.mem_map.1 hj with ⟨j2, hj2, rfl⟩
    have hmem := (List.mem_filter.1 hj2).1
    rcases List.mem_range'.1 hmem with ⟨k, hk, rfl⟩
    omega

theorem flm_scan_id_fold (l : List String) :
    ∀ (fuel : Nat) (i : Int) (old : Int → Int), 0 ≤ i → i ≤ (l.length : Int) →
      fuel = ((l.length : Int) - i).toNat →
      OldInv i old → old (i - 1) = i →
      ((intRange i (l.length : Int)).foldl (flm_row l (b2j l) 0 (l.length : Int))
        (old, (0, 0, i))).2 = (0, 0, (l.length : Int)) := by
  intro fuel
  induction fuel with
  | zero =>
    intro i old h0 hle hf hold hdiag
    have hieq : i = (l.length : Int) := by omega
    subst hieq
    rw [intRange_eq_nil _ _ (le_refl _)]
    rfl
  | succ nfu ih =>
    intro i old h0 hle hf hold hdiag
    rcases eq_or_lt_of_le hle with heq | hlt
    · subst heq
      rw [intRange_eq_nil _ _ (le_refl _)]
      rfl
    · rw [intRange_eq_cons _ _ hlt, List.foldl_cons]
      obtain ⟨js1, js2, hdec, hjs1, hjs2⟩ := b2j_self_decomp l i h0 hlt
      have hfresh : OldInv (i + 1) (fun _ => (0 : Int)) := by
        intro x
        refine ⟨le_refl 0, ?_, Or.inl rfl⟩
        show (0 : Int) ≤ i + 1
        omega
      obtain ⟨nd, heq2, hninv, hndi⟩ := flm_inner_id_pre i (l.length : Int) old h0 hlt
        hold hdiag js1 js2 (fun _ => 0) hjs1 hjs2 hfresh
      have hrow : flm_row l (b2j l) 0 (l.length : Int) (old, (0, 0, i)) i
          = (nd, (0, 0, i + 1)) := by
        unfold flm_row
        dsimp only
        rw [hdec]
        exact heq2
      rw [hrow]
      apply ih (i + 1) nd (by omega) (by omega) (by omega) hninv
      rw [show i + 1 - 1 = i from by omega]
      exact hndi

theorem flm_scan_id (l : List String) :
    flm_scan l (b2j l) 0 (l.length : Int) 0 (l.length : Int)
      = (0, 0, (l.length : Int)) := by
  unfold flm_scan
  exact flm_scan_id_fold l ((l.length : Int) - 0).toNat 0 (fun _ => 0) (le_refl 0)
    (Int.ofNat_nonneg _) rfl (fun x => ⟨le_refl 0, le_refl 0, Or.inl rfl⟩) rfl

theorem find_longest_match_id (l : List String) :
    find_longest_match l l (b2j l) 0 (l.length : Int) 0 (l.length : Int)
      = (0, 0, (l.length : Int)) := by
  unfold find_longest_match
  rw [flm_scan_id]
  dsimp only
  have h2 : flm_extend_lo l l 0 0 (((0 : Int) - 0).toNat)
      ((0 : Int), (0 : Int), (l.length : Int)) = ((0 : Int), (0 : Int), (l.length : Int)) := rfl
  rw [h2]
  have h3 : (((l.length : Int)) - (((0 : Int), (0 : Int), (l.length : Int)).1
      + ((0 : Int), (0 : Int), (l.length : Int)).2.2)).toNat = 0 := by
    show ((l.length : Int) - (0 + (l.length : Int))).toNat = 0
    omega
  rw [h3]
  rfl

theorem get_matching_blocks_id (l : List String) (hne : l ≠ []) :
    get_matching_blocks l l
      = [((0 : Int), (0 : Int), (l.length : Int)),
         ((l.length : Int), (l.length : Int), 0)] := by
  have hpos : 0 < l.length := List.length_pos.2 hne
  have hgmb : gmb_loop l l (b2j l) (l.length + l.length + 1)
      [((0 : Int), (l.length : Int), (0 : Int), (l.length : Int))] []
      = [((0 : Int), (0 : Int), (l.length : Int))] := by
    rw [gmb_loop]
    simp only [List.getLast?_singleton]
    rw [find_longest_match_id]
    dsimp only
    rw [if_pos (show ((l.length : Int)) ≠ 0 by omega)]
    rw [if_neg (show ¬ ((0 : Int) < 0 ∧ (0 : Int) < 0) by
      intro hcon
      omega)]
    rw [if_neg (show ¬ ((0 : Int) + (l.length : Int) < (l.length : Int) ∧
        (0 : Int) + (l.length : Int) < (l.length : Int)) by
      intro hcon
      omega)]
    exact gmb_loop_nil _ _ _ _ _
  unfold get_matching_blocks
  rw [hgmb]
  dsimp only
  have hcoll : collapse_blocks (sort_blocks [((0 : Int), (0 : Int), (l.length : Int))])
      = [((0 : Int), (0 : Int), (l.length : Int))] := by
    show collapse_blocks [((0 : Int), (0 : Int), (l.length : Int))] = _
    unfold collapse_blocks
    rw [List.foldl_cons, List.foldl_nil]
    unfold collapse_step
    dsimp only
    rw [if_pos (show (0 : Int) + 0 = 0 ∧ (0 : Int) + 0 = 0 by constructor <;> omega)]
    dsimp only
    rw [if_pos (show (0 : Int) + (l.length : Int) ≠ 0 by omega)]
    rw [show (0 : Int) + (l.length : Int) = (l.length : Int) from by omega]
    rfl
  rw [hcoll]
  rfl

theorem get_opcodes_id (l : List String) :
    get_opcodes l l = if l.length = 0 then []
      else [("equal", (0 : Int), (l.length : Int), (0 : Int), (l.length : Int))] := by
  by_cases hnil : l = []
  · subst hnil
    rfl
  · have hpos : 0 < l.length := List.length_pos.2 hnil
    rw [if_neg (by omega : ¬ l.length = 0)]
    unfold get_opcodes
    rw [get_matching_blocks_id l hnil, List.foldl_cons, List.foldl_cons, List.foldl_nil]
    have h1 : opcodes_step ((0, 0), []) ((0 : Int), (0 : Int), (l.length : Int))
        = (((l.length : Int), (l.length : Int)),
           [("equal", (0 : Int), (l.length : Int), (0 : Int), (l.length : Int))]) := by
      unfold opcodes_step
      dsimp only
      rw [if_neg (show ¬ ((0 : Int) < 0 ∧ (0 : Int) < 0) by intro hcon; omega)]
      rw [if_neg (show ¬ (0 : Int) < 0 by omega)]
      rw [if_neg (show ¬ (0 : Int) < 0 by omega)]
      rw [if_neg (by decide : ¬ ("" : String) ≠ "")]
      rw [if_pos (show ((l.length : Int)) ≠ 0 by omega)]
      rw [show (0 : Int) + (l.length : Int) = (l.length : Int) from by omega]
      rfl
    rw [h1]
    have h2 : opcodes_step (((l.length : Int), (l.length : Int)),
        [("equal", (0 : Int), (l.length : Int), (0 : Int), (l.length : Int))])
        ((l.length : Int), (l.length : Int), 0)
        = (((l.length : Int), (l.length : Int)),
           [("equal", (0 : Int), (l.length : Int), (0 : Int), (l.length : Int))]) := by
      unfold opcodes_step
      dsimp only
      rw [if_neg (show ¬ ((l.length : Int) < (l.length : Int) ∧
          (l.length : Int) < (l.length : Int)) by intro hcon; omega)]
      rw [if_neg (show ¬ (l.length : Int) < (l.length : Int) by omega)]
      rw [if_neg (show ¬ (l.length : Int) < (l.length : Int) by omega)]
      rw [if_neg (by decide : ¬ ("" : String) ≠ "")]
      rw [if_neg (by decide : ¬ (0 : Int) ≠ 0)]
      rw [show (l.length : Int) + 0 = (l.length : Int) from by omega]
    rw [h2]

/-- **C7.** No-op detection: when the template file's read succeeds and
`expected_content` and `actual_content` are the same string, the diff of
identical line lists consists of `"equal"` opcodes only, so
`attempt_chunk_based_jinja_resolution` applies no edits (`changes_made`
stays `False`) and returns the `'no changes'` signal `None` rather than an
empty-but-truthy edit. -/
theorem c7_noop_returns_none (env : RenderEnv) (template_file : Option String)
    (content : String) (h : env.read_fails = none) :
    (attempt_chunk_based_jinja_resolution env template_file content content).1
      = Except.ok none := by
  cases template_file with
  | none => rfl
  | some tc =>
    unfold attempt_chunk_based_jinja_resolution
    rw [h]
    dsimp only
    have hres : (propose_resolution (pySplitlines tc) (pySplitlines content)
        (pySplitlines content)).2 = false := by
      have hfe : (propose_resolution (pySplitlines tc) (pySplitlines content)
          (pySplitlines content)).2
          = ((get_opcodes (pySplitlines content) (pySplitlines content)).foldl
              (apply_opcode (_build_expected_to_template_index_map (pySplitlines tc)
                (pySplitlines content)) (pySplitlines content))
              (ResolveState.mk (pySplitlines tc) 0 false)).changes_made := rfl
      rw [hfe]
      generalize _build_expected_to_template_index_map (pySplitlines tc)
        (pySplitlines content) = m0
      rw [get_opcodes_id]
      by_cases hc : (pySplitlines content).length = 0
      · rw [if_pos hc]
        rfl
      · rw [if_neg hc]
        rw [List.foldl_cons, List.foldl_nil]
        have happly : apply_opcode m0 (pySplitlines content)
            (ResolveState.mk (pySplitlines tc) 0 false)
            ("equal", (0 : Int), ((pySplitlines content).length : Int), (0 : Int),
              ((pySplitlines content).length : Int))
            = ResolveState.mk (pySplitlines tc) 0 false := by
          unfold apply_opcode
          dsimp only
          rw [if_pos (rfl : ("equal" : String) = "equal")]
        rw [happly]
    rw [if_pos hres]

theorem c7_noop_returns_none_witness :
    (attempt_chunk_based_jinja_resolution envNoop (some "t\n") "a\nb\n" "a\nb\n").1
      = Except.ok none :=
  c7_noop_returns_none envNoop (some "t\n") "a\nb\n" rfl
